import Mathlib

/-!
# mirth_exporter: the scrape cycle of `mirth_exporter.go`

A shallow embedding of `Exporter.Collect`, `fetchStatLines`, `readStatus` and
`readChannelStats`, with the parts of the Go libraries they call
(`regexp`, `strings.Split`, `strconv.ParseFloat`, `prometheus.MustNewConstMetric`).

Modelling conventions.
* A Go string is the sequence of its code points (`Str`), the view `regexp` takes of its
  input; the text is taken to be valid UTF-8.
* A channel send `ch <- m` appends `m` to the list of metrics sent; a function that
  sends on `ch` returns the metrics it sent, in order.
* A Go panic is `none`.
* A `float64` is one of the values this program can produce: a non-negative integer
  that the format represents, or `+Inf`.
* What the operating system does in a call of `fetchStatLines` is an input (`World`).
-/

namespace MirthExporter

set_option exponentiation.threshold 2000

/-- A Go string, as the sequence of its code points. -/
abbrev Str := List Char

/-! ## regexp -/

/-- The syntax of the patterns the exporter compiles. `bot` is `^` and `eot` is `$`
(no `m` flag: begin and end of text), `cls` a one-character class, `plus` the greedy `x+`,
`rep n` the counted `x{n}`, `cap i` the numbered capturing group. -/
inductive Regex where
  | bot : Regex
  | eot : Regex
  | cls : (Char → Bool) → Regex
  | seq : Regex → Regex → Regex
  | plus : Regex → Regex
  | rep : Nat → Regex → Regex
  | cap : Nat → Regex → Regex

/-- A thread of the backtracking search: the offset reached, the text still ahead
and the groups closed so far (most recent first). -/
structure Config where
  pos : Nat
  rest : Str
  caps : List (Nat × Str)
deriving DecidableEq, Repr

/-- Greedy iteration of `step`, one or more times: after each iteration the longer
match is tried before the shorter one. An iteration that consumed nothing is not repeated. -/
def iter (step : Config → List Config) : Nat → Config → List Config
  | 0, _ => []
  | fuel + 1, c =>
    (step c).flatMap fun c1 =>
      (if c.pos < c1.pos then iter step fuel c1 else []) ++ [c1]

/-- Exactly `n` iterations of `step`. -/
def times (step : Config → List Config) : Nat → Config → List Config
  | 0, c => [c]
  | n + 1, c => (step c).flatMap (times step n)

/-- Every way the pattern can match at the configuration, in the order a
backtracking search visits them (leftmost-first priority). -/
def run : Regex → Config → List Config
  | .bot, c => if c.pos = 0 then [c] else []
  | .eot, c => if c.rest = [] then [c] else []
  | .cls p, c =>
    match c.rest with
    | [] => []
    | x :: xs => if p x then [{ c with pos := c.pos + 1, rest := xs }] else []
  | .seq a b, c => (run a c).flatMap (run b)
  | .plus a, c => iter (run a) (c.rest.length + 1) c
  | .rep n a, c => times (run a) n c
  | .cap i a, c =>
    (run a c).map fun c1 => { c1 with caps := (i, c.rest.take (c1.pos - c.pos)) :: c1.caps }

/-- The leftmost match: the first start offset at which the pattern matches, with the
preferred thread there. -/
def searchFrom (re : Regex) : Nat → Str → Option (Nat × Config)
  | pos, [] => (run re ⟨pos, [], []⟩).head?.map fun c => (pos, c)
  | pos, x :: xs =>
    match (run re ⟨pos, x :: xs, []⟩).head? with
    | some c => some (pos, c)
    | none => searchFrom re (pos + 1) xs

/-- The method `Regexp.MatchString`. -/
def Regex.MatchString (re : Regex) (s : Str) : Bool :=
  (searchFrom re 0 s).isSome

/-- The text of group `i` in a thread (empty when the group did not take part). -/
def Config.group (c : Config) (i : Nat) : Str :=
  (c.caps.lookup i).getD []

/-- The method `Regexp.NumSubexp`: the number of capturing groups, which are numbered from 1
in the order of their opening parentheses. -/
def Regex.NumSubexp : Regex → Nat
  | .bot => 0
  | .eot => 0
  | .cls _ => 0
  | .seq a b => max a.NumSubexp b.NumSubexp
  | .plus a => a.NumSubexp
  | .rep _ a => a.NumSubexp
  | .cap i a => max i a.NumSubexp

/-- The method `Regexp.FindStringSubmatch`: `none` is the nil slice of no match, otherwise
the text of the leftmost match followed by the text of each group. -/
def Regex.FindStringSubmatch (re : Regex) (s : Str) : Option (List Str) :=
  (searchFrom re 0 s).map fun (start, c) =>
    ((s.drop start).take (c.pos - start)) ::
      (List.range re.NumSubexp).map fun i => c.group (i + 1)

/-- The class `\s`: tab, newline, form feed, carriage return, space. -/
def isSpace (c : Char) : Bool :=
  c.toNat == 9 || c.toNat == 10 || c.toNat == 12 || c.toNat == 13 || c.toNat == 32

/-- The class `\d`. -/
def isDigit (c : Char) : Bool :=
  48 ≤ c.toNat && c.toNat ≤ 57

/-- The class `[a-zA-Z]`. -/
def isAlpha (c : Char) : Bool :=
  (97 ≤ c.toNat && c.toNat ≤ 122) || (65 ≤ c.toNat && c.toNat ≤ 90)

/-- The class `[0-9a-f-]`. -/
def isIdChar (c : Char) : Bool :=
  (48 ≤ c.toNat && c.toNat ≤ 57) || (97 ≤ c.toNat && c.toNat ≤ 102) || c.toNat == 45

/-- The class `.` (no `s` flag): any character but newline. -/
def isDot (c : Char) : Bool :=
  c.toNat != 10

/-- A literal character. -/
def lit (c : Char) : Regex :=
  .cls fun x => x == c

/-- The concatenation of the literals of `s`, followed by `k`. -/
def lits (s : Str) (k : Regex) : Regex :=
  s.foldr (fun c r => .seq (lit c) r) k

/-- The pattern `^[0-9a-f-]{36}\s+[a-zA-Z]+\s+` of `readStatus`. -/
def deployed : Regex :=
  .seq .bot (.seq (.rep 36 (.cls isIdChar))
    (.seq (.plus (.cls isSpace)) (.seq (.plus (.cls isAlpha)) (.plus (.cls isSpace)))))

/-- The pattern `\s+Started\s+` of `readStatus`. -/
def started : Regex :=
  .seq (.plus (.cls isSpace)) (lits "Started".toList (.plus (.cls isSpace)))

/-- The pattern `^(\d+)\s+(\d+)\s+(\d+)\s+(\d+)\s+(\d+)\s+(.+)$` of `readChannelStats`. -/
def stat : Regex :=
  .seq .bot
  (.seq (.cap 1 (.plus (.cls isDigit))) (.seq (.plus (.cls isSpace))
  (.seq (.cap 2 (.plus (.cls isDigit))) (.seq (.plus (.cls isSpace))
  (.seq (.cap 3 (.plus (.cls isDigit))) (.seq (.plus (.cls isSpace))
  (.seq (.cap 4 (.plus (.cls isDigit))) (.seq (.plus (.cls isSpace))
  (.seq (.cap 5 (.plus (.cls isDigit))) (.seq (.plus (.cls isSpace))
  (.seq (.cap 6 (.plus (.cls isDot))) .eot)))))))))))

/-! ## strings, strconv -/

/-- The call `strings.Split(s, "\n")`: the pieces between the newlines of `s`; one more
piece than there are newlines, so never an empty slice. -/
def splitLines : Str → List Str
  | [] => [[]]
  | c :: cs =>
    if c = '\n' then [] :: splitLines cs
    else
      match splitLines cs with
      | [] => [[c]]
      | p :: ps => (c :: p) :: ps

/-- A `float64` value of this program: a non-negative integer of the format, or `+Inf`. -/
inductive Float64 where
  | fin : Nat → Float64
  | inf : Float64
deriving DecidableEq, Repr

/-- Round-to-nearest-even of a non-negative integer to the 53-bit significand of `float64`
(the result is again an integer; below `2^53` every integer is kept). -/
def float64Round (n : Nat) : Nat :=
  if n < 2 ^ 53 then n
  else
    let sh := Nat.log2 n - 52
    let q := n / 2 ^ sh
    let r := n % 2 ^ sh
    let half := 2 ^ (sh - 1)
    (if half < r ∨ (r = half ∧ q % 2 = 1) then q + 1 else q) * 2 ^ sh

/-- The conversion `float64(i)` of a non-negative `int`. -/
def float64OfInt (n : Nat) : Float64 :=
  .fin (float64Round n)

/-- The number is exactly representable as a finite `float64`: rounding keeps it, and it is
below `2^1024`. Every number below `2^53` is. -/
def IsFloat64 (n : Nat) : Prop :=
  float64Round n = n ∧ n < 2 ^ 1024

/-- The `Err` of a `*strconv.NumError`. -/
inductive NumError where
  | ErrRange : NumError
  | ErrSyntax : NumError
deriving DecidableEq, Repr

/-- The number a run of decimal digits denotes. -/
def decimalValue (s : Str) : Nat :=
  s.foldl (fun acc c => 10 * acc + (c.toNat - 48)) 0

/-- The call `strconv.ParseFloat(s, 64)` with its two results, on the texts this program
gives it: a non-empty run of ASCII digits yields the nearest `float64`, or `+Inf` with
`ErrRange` when that is beyond the largest finite value. Any other text is reported as
`ErrSyntax` with value 0; the float syntax with sign, point, exponent, hexadecimal digits,
infinities and NaN is not modelled, and groups 1 to 5 of `stat` never hold such a text
(`mem_run_stat`). -/
def ParseFloat (s : Str) : Float64 × Option NumError :=
  if s ≠ [] ∧ s.all isDigit = true then
    let v := float64Round (decimalValue s)
    if v < 2 ^ 1024 then (.fin v, none) else (.inf, some .ErrRange)
  else (.fin 0, some .ErrSyntax)

/-! ## prometheus -/

/-- The metric descriptors declared at package level. -/
inductive Desc where
  | up | channelsDeployed | channelsStarted
  | messagesReceived | messagesFiltered | messagesQueued | messagesSent | messagesErrored
deriving DecidableEq, Repr

/-- The fully qualified name `prometheus.BuildFQName(namespace, "", name)` of a descriptor. -/
def Desc.fqName : Desc → String
  | .up => "mirth_up"
  | .channelsDeployed => "mirth_channels_deployed"
  | .channelsStarted => "mirth_channels_started"
  | .messagesReceived => "mirth_messages_received_total"
  | .messagesFiltered => "mirth_messages_filtered_total"
  | .messagesQueued => "mirth_messages_queued"
  | .messagesSent => "mirth_messages_sent_total"
  | .messagesErrored => "mirth_messages_errored_total"

/-- The variable labels a descriptor was declared with. -/
def Desc.variableLabels : Desc → List String
  | .up | .channelsDeployed | .channelsStarted => []
  | _ => ["channel"]

/-- The type `prometheus.ValueType`, as far as it is used. -/
inductive ValueType where
  | CounterValue | GaugeValue
deriving DecidableEq, Repr

/-- A constant metric: one sample. -/
structure Metric where
  desc : Desc
  valueType : ValueType
  value : Float64
  labelValues : List Str
deriving DecidableEq, Repr

/-- The call `prometheus.MustNewConstMetric`: panics when the number of label values is not
the number of variable labels of the descriptor. -/
def MustNewConstMetric (desc : Desc) (valueType : ValueType) (value : Float64)
    (labelValues : List Str) : Option Metric :=
  if labelValues.length = desc.variableLabels.length then
    some ⟨desc, valueType, value, labelValues⟩
  else none

/-! ## the exporter -/

/-- What the operating system does in one call of `fetchStatLines`: the temporary file
cannot be created, or `cmd.Output()` returns an error (the command could not be started,
exited unsuccessfully, or was killed by the 10 second timer), or it returns the
captured standard output. -/
inductive World where
  | tempFileFails : World
  | commandFails : World
  | commandSucceeds (stdout : Str) : World
deriving DecidableEq, Repr

/-- The errors `fetchStatLines` returns. -/
inductive FetchError where
  | tempFile : FetchError
  | command : FetchError
  | unexpectedOutput (stdout : Str) : FetchError
deriving DecidableEq, Repr

/-- The method `Exporter.fetchStatLines`. -/
def fetchStatLines : World → Except FetchError (List Str)
  | .tempFileFails => .error .tempFile
  | .commandFails => .error .command
  | .commandSucceeds stdout =>
    let lines := splitLines stdout
    if lines.length < 3 then .error (.unexpectedOutput stdout)
    else .ok lines

/-- The loop of `readStatus`: `(deployedCount, startedCount)` after the lines. The counters
are Go `int`s; they cannot wrap, being at most `len(lines)`. -/
def statusCounts (lines : List Str) : Nat × Nat :=
  lines.foldl (fun acc line =>
    if deployed.MatchString line then
      (acc.1 + 1, if started.MatchString line then acc.2 + 1 else acc.2)
    else acc) (0, 0)

/-- The method `Exporter.readStatus`: the metrics it sends. -/
def readStatus (lines : List Str) : Option (List Metric) := do
  let counts := statusCounts lines
  let m1 ← MustNewConstMetric .channelsDeployed .GaugeValue (float64OfInt counts.1) []
  let m2 ← MustNewConstMetric .channelsStarted .GaugeValue (float64OfInt counts.2) []
  pure [m1, m2]

/-- The body of the loop of `readChannelStats` for one line. Indexing the nil slice of a
failed `FindStringSubmatch` would panic. -/
def readChannelStatsLine (line : Str) : Option (List Metric) :=
  if stat.MatchString line then do
    let group ← stat.FindStringSubmatch line
    let channel ← group[6]?
    let received := (ParseFloat (← group[1]?)).1
    let m1 ← MustNewConstMetric .messagesReceived .CounterValue received [channel]
    let filtered := (ParseFloat (← group[2]?)).1
    let m2 ← MustNewConstMetric .messagesFiltered .CounterValue filtered [channel]
    let queued := (ParseFloat (← group[3]?)).1
    let m3 ← MustNewConstMetric .messagesQueued .GaugeValue queued [channel]
    let sent := (ParseFloat (← group[4]?)).1
    let m4 ← MustNewConstMetric .messagesSent .CounterValue sent [channel]
    let errored := (ParseFloat (← group[5]?)).1
    let m5 ← MustNewConstMetric .messagesErrored .CounterValue errored [channel]
    pure [m1, m2, m3, m4, m5]
  else pure []

/-- The method `Exporter.readChannelStats`: the metrics it sends. -/
def readChannelStats : List Str → Option (List Metric)
  | [] => some []
  | line :: lines => do
    let here ← readChannelStatsLine line
    let later ← readChannelStats lines
    pure (here ++ later)

/-- The method `Exporter.Collect`: the metrics it sends. -/
def Collect (w : World) : Option (List Metric) :=
  match fetchStatLines w with
  | .error _ => do
    let m ← MustNewConstMetric .up .GaugeValue (.fin 0) []
    pure [m]
  | .ok lines => do
    let m ← MustNewConstMetric .up .GaugeValue (.fin 1) []
    let status ← readStatus lines
    let stats ← readChannelStats lines
    pure (m :: status ++ stats)

/-! ## The words of the specification -/

/-- Whitespace: space, tab, newline, carriage return, form feed. -/
def IsWhitespace (c : Char) : Prop :=
  c = ' ' ∨ c = '\t' ∨ c = '\n' ∨ c = '\r' ∨ c = '\x0c'

/-- A decimal digit. -/
def IsDecimalDigit (c : Char) : Prop :=
  '0' ≤ c ∧ c ≤ '9'

/-- An alphabetic character: a letter of the Latin alphabet, of either case. -/
def IsLetter (c : Char) : Prop :=
  ('a' ≤ c ∧ c ≤ 'z') ∨ ('A' ≤ c ∧ c ≤ 'Z')

/-- A hex digit: a decimal digit or a letter `a` to `f`, of either case. -/
def IsHexDigit (c : Char) : Prop :=
  IsDecimalDigit c ∨ ('a' ≤ c ∧ c ≤ 'f') ∨ ('A' ≤ c ∧ c ≤ 'F')

/-- A lower-case hex digit: a decimal digit or a letter `a` to `f`. -/
def IsLowerHexDigit (c : Char) : Prop :=
  IsDecimalDigit c ∨ ('a' ≤ c ∧ c ≤ 'f')

instance : DecidablePred IsWhitespace := fun c => by unfold IsWhitespace; infer_instance

instance : DecidablePred IsDecimalDigit := fun c => by unfold IsDecimalDigit; infer_instance

instance : DecidablePred IsLetter := fun c => by unfold IsLetter; infer_instance

instance : DecidablePred IsHexDigit := fun c => by unfold IsHexDigit; infer_instance

instance : DecidablePred IsLowerHexDigit := fun c => by unfold IsLowerHexDigit; infer_instance

/-- A non-negative integer field: a non-empty run of decimal digits. -/
def IsNumberField (d : Str) : Prop :=
  d ≠ [] ∧ ∀ c ∈ d, IsDecimalDigit c

/-- A non-empty run of whitespace. -/
def IsGap (w : Str) : Prop :=
  w ≠ [] ∧ ∀ c ∈ w, IsWhitespace c

/-- A trailing name: non-empty text within one line. -/
def IsName (name : Str) : Prop :=
  name ≠ [] ∧ ∀ c ∈ name, c ≠ '\n'

/-- A non-empty run of alphabetic characters. -/
def IsWord (a : Str) : Prop :=
  a ≠ [] ∧ ∀ c ∈ a, IsLetter c

/-- The per-channel stats row of the specification, with its parts: five whitespace-separated
non-negative integer fields, whitespace, and a trailing name that fills the rest of the line. -/
def StatRow (line d1 d2 d3 d4 d5 name : Str) : Prop :=
  ∃ w1 w2 w3 w4 w5 : Str,
    line = d1 ++ w1 ++ d2 ++ w2 ++ d3 ++ w3 ++ d4 ++ w4 ++ d5 ++ w5 ++ name ∧
    IsNumberField d1 ∧ IsNumberField d2 ∧ IsNumberField d3 ∧ IsNumberField d4 ∧
    IsNumberField d5 ∧
    IsGap w1 ∧ IsGap w2 ∧ IsGap w3 ∧ IsGap w4 ∧ IsGap w5 ∧ IsName name

/-- A line that matches the stats row pattern of the specification. -/
def IsStatRow (line : Str) : Prop :=
  ∃ d1 d2 d3 d4 d5 name, StatRow line d1 d2 d3 d4 d5 name

/-- The five samples of one stats row, in the order sent: received, filtered, queued, sent,
errored, each with the channel name as its label value. -/
def channelSamples (received filtered queued sent errored : Float64) (channel : Str) :
    List Metric :=
  [⟨.messagesReceived, .CounterValue, received, [channel]⟩,
   ⟨.messagesFiltered, .CounterValue, filtered, [channel]⟩,
   ⟨.messagesQueued, .GaugeValue, queued, [channel]⟩,
   ⟨.messagesSent, .CounterValue, sent, [channel]⟩,
   ⟨.messagesErrored, .CounterValue, errored, [channel]⟩]

/-- The identifier the pattern `deployed` begins with: 36 characters, each a lower-case hex
digit or a hyphen. -/
def IsIdToken (tok : Str) : Prop :=
  tok.length = 36 ∧ ∀ c ∈ tok, IsLowerHexDigit c ∨ c = '-'

/-- The identifier in the words of the specification: 36 characters, each a hex digit or a
hyphen. -/
def IsHexToken (tok : Str) : Prop :=
  tok.length = 36 ∧ ∀ c ∈ tok, IsHexDigit c ∨ c = '-'

/-- A deployed-channel row: an identifier of lower-case hex digits and hyphens, whitespace,
one or more alphabetic characters, whitespace, and any text. -/
def DeployedRow (line : Str) : Prop :=
  ∃ tok w1 al w2 rest : Str,
    line = tok ++ w1 ++ al ++ w2 ++ rest ∧ IsIdToken tok ∧ IsGap w1 ∧ IsWord al ∧ IsGap w2

/-- A deployed-channel row in the words of the specification: the identifier is of hex digits
and hyphens. -/
def DeployedRowAsWorded (line : Str) : Prop :=
  ∃ tok w1 al w2 rest : Str,
    line = tok ++ w1 ++ al ++ w2 ++ rest ∧ IsHexToken tok ∧ IsGap w1 ∧ IsWord al ∧ IsGap w2

/-- The line begins with a 36-character identifier of lower-case hex digits and hyphens. -/
def BeginsWithIdToken (line : Str) : Prop :=
  ∃ tok rest : Str, line = tok ++ rest ∧ IsIdToken tok

/-- The line contains `Started` with a whitespace character directly before it and directly
after it (what the pattern `started` asks for). -/
def HasStartedToken (line : Str) : Prop :=
  ∃ (before after : Str) (w1 w2 : Char),
    IsWhitespace w1 ∧ IsWhitespace w2 ∧
    line = before ++ [w1] ++ "Started".toList ++ [w2] ++ after

/-- The line contains the whitespace-delimited token `Started`, in the words of the
specification: `Started` stands in the line between whitespace or the start of the line
before it and whitespace or the end of the line after it. -/
def HasStartedTokenAsWorded (line : Str) : Prop :=
  ∃ before after : Str,
    line = before ++ "Started".toList ++ after ∧
    (∀ c, before.getLast? = some c → IsWhitespace c) ∧
    (∀ c, after.head? = some c → IsWhitespace c)

/-- The two samples of `readStatus` for given counts. -/
def statusSamples (deployedCount startedCount : Nat) : List Metric :=
  [⟨.channelsDeployed, .GaugeValue, float64OfInt deployedCount, []⟩,
   ⟨.channelsStarted, .GaugeValue, float64OfInt startedCount, []⟩]

/-- The samples one line contributes: the five samples of a reading of the line as a stats
row, or nothing when the line is no stats row. -/
def RowGroup (line : Str) (g : List Metric) : Prop :=
  (∃ d1 d2 d3 d4 d5 name, StatRow line d1 d2 d3 d4 d5 name ∧
    g = channelSamples (ParseFloat d1).1 (ParseFloat d2).1 (ParseFloat d3).1
      (ParseFloat d4).1 (ParseFloat d5).1 name) ∨
  (¬ IsStatRow line ∧ g = [])

/-- The order of the `float64` values of this program. -/
def Float64.le : Float64 → Float64 → Prop
  | .fin a, .fin b => a ≤ b
  | _, .inf => True
  | .inf, .fin _ => False

/-! ## Auxiliary definitions -/

/-- The text at the configuration begins with a character of the class. -/
def StartsIn (p : Char → Bool) (c : Config) : Prop :=
  ∃ x xs, c.rest = x :: xs ∧ p x = true

/-- The threads of `x+` in order, for a one-character class: the longest run first. -/
def greedyList (p : Char → Bool) (caps : List (Nat × Str)) : Nat → Str → List Config
  | _, [] => []
  | pos, x :: xs =>
    if p x then greedyList p caps (pos + 1) xs ++ [⟨pos + 1, xs, caps⟩] else []

/-- The digit string of `10^309`, beyond the largest finite `float64`. -/
def bigField : Str :=
  '1' :: List.replicate 309 '0'

/-! ## The threads of the search -/

theorem mem_run_cls (p : Char → Bool) (pos : Nat) (rest : Str) (caps : List (Nat × Str))
    (c1 : Config) :
    c1 ∈ run (.cls p) ⟨pos, rest, caps⟩ ↔
      ∃ x b, p x = true ∧ rest = x :: b ∧ c1 = ⟨pos + 1, b, caps⟩ := by
  cases rest with
  | nil => simp [run]
  | cons y ys =>
    by_cases h : p y = true
    · simp only [run, h, if_true, List.mem_singleton]
      constructor
      · intro e; exact ⟨y, ys, h, rfl, e⟩
      · rintro ⟨x, b, _, e, rfl⟩
        simp only [List.cons.injEq] at e
        rw [e.2]
    · simp only [run, h, Bool.false_eq_true, if_false, List.not_mem_nil, false_iff]
      rintro ⟨x, b, hx, e, _⟩
      simp only [List.cons.injEq] at e
      rw [e.1] at h
      exact h hx

theorem mem_iter_cls (p : Char → Bool) :
    ∀ (fuel pos : Nat) (rest : Str) (caps : List (Nat × Str)) (c1 : Config),
      rest.length < fuel →
      (c1 ∈ iter (run (.cls p)) fuel ⟨pos, rest, caps⟩ ↔
        ∃ a b, a ≠ [] ∧ (∀ x ∈ a, p x = true) ∧ rest = a ++ b ∧
          c1 = ⟨pos + a.length, b, caps⟩) := by
  intro fuel
  induction fuel with
  | zero => intro pos rest caps c1 h; omega
  | succ fuel ih =>
    intro pos rest caps c1 hlen
    simp only [iter, List.mem_flatMap, mem_run_cls]
    constructor
    · rintro ⟨c2, ⟨x, b, hx, rfl, rfl⟩, hc1⟩
      simp only [Nat.lt_add_one, if_true, List.mem_append, List.mem_singleton] at hc1
      rcases hc1 with h | h
      · have hl : b.length < fuel := by simp at hlen; omega
        obtain ⟨a, b2, ha, hp, rfl, rfl⟩ := (ih (pos + 1) b caps c1 hl).1 h
        refine ⟨x :: a, b2, by simp, ?_, by simp, ?_⟩
        · intro y hy
          rcases List.mem_cons.1 hy with rfl | hy
          · exact hx
          · exact hp y hy
        · simp only [List.length_cons, Config.mk.injEq, and_true, true_and]; omega
      · exact ⟨[x], b, by simp, by simpa using hx, by simp, by simpa using h⟩
    · rintro ⟨a, b, ha, hp, rfl, rfl⟩
      cases a with
      | nil => exact absurd rfl ha
      | cons x a =>
        refine ⟨⟨pos + 1, a ++ b, caps⟩, ⟨x, a ++ b, hp x (by simp), by simp, rfl⟩, ?_⟩
        simp only [Nat.lt_add_one, if_true, List.mem_append, List.mem_singleton]
        by_cases hnil : a = []
        · right; subst hnil; simp
        · left
          have hl : (a ++ b).length < fuel := by simp at hlen ⊢; omega
          refine (ih (pos + 1) (a ++ b) caps _ hl).2 ⟨a, b, hnil, ?_, rfl, ?_⟩
          · intro y hy; exact hp y (List.mem_cons_of_mem _ hy)
          · simp only [List.length_cons, Config.mk.injEq, and_true, true_and]; omega

/-- The threads of `x+` for a one-character class: every non-empty run of the class
at the head of the text. -/
theorem mem_run_plus (p : Char → Bool) (pos : Nat) (rest : Str) (caps : List (Nat × Str))
    (c1 : Config) :
    c1 ∈ run (.plus (.cls p)) ⟨pos, rest, caps⟩ ↔
      ∃ a b, a ≠ [] ∧ (∀ x ∈ a, p x = true) ∧ rest = a ++ b ∧
        c1 = ⟨pos + a.length, b, caps⟩ := by
  simp only [run]
  exact mem_iter_cls p _ pos rest caps c1 (Nat.lt_succ_self _)

/-- The threads of a group around `x+`. -/
theorem mem_run_cap_plus (i : Nat) (p : Char → Bool) (pos : Nat) (rest : Str)
    (caps : List (Nat × Str)) (c1 : Config) :
    c1 ∈ run (.cap i (.plus (.cls p))) ⟨pos, rest, caps⟩ ↔
      ∃ a b, a ≠ [] ∧ (∀ x ∈ a, p x = true) ∧ rest = a ++ b ∧
        c1 = ⟨pos + a.length, b, (i, a) :: caps⟩ := by
  rw [run]
  simp only [List.mem_map, mem_run_plus]
  constructor
  · rintro ⟨c2, ⟨a, b, ha, hp, rfl, rfl⟩, rfl⟩
    exact ⟨a, b, ha, hp, rfl, by simp⟩
  · rintro ⟨a, b, ha, hp, rfl, rfl⟩
    exact ⟨_, ⟨a, b, ha, hp, rfl, rfl⟩, by simp⟩

theorem mem_times_cls (p : Char → Bool) :
    ∀ (n pos : Nat) (rest : Str) (caps : List (Nat × Str)) (c1 : Config),
      c1 ∈ times (run (.cls p)) n ⟨pos, rest, caps⟩ ↔
        ∃ a b, a.length = n ∧ (∀ x ∈ a, p x = true) ∧ rest = a ++ b ∧
          c1 = ⟨pos + n, b, caps⟩ := by
  intro n
  induction n with
  | zero =>
    intro pos rest caps c1
    simp only [times, List.mem_singleton, List.length_eq_zero]
    constructor
    · rintro rfl; exact ⟨[], rest, rfl, by simp, rfl, rfl⟩
    · rintro ⟨a, b, rfl, _, rfl, rfl⟩; rfl
  | succ n ih =>
    intro pos rest caps c1
    simp only [times, List.mem_flatMap]
    constructor
    · rintro ⟨c2, h2, h1⟩
      obtain ⟨x, b, hx, rfl, rfl⟩ := (mem_run_cls p pos rest caps c2).1 h2
      obtain ⟨a, b2, ha, hp, rfl, rfl⟩ := (ih _ _ _ _).1 h1
      refine ⟨x :: a, b2, by simp [ha], ?_, by simp, ?_⟩
      · intro y hy
        rcases List.mem_cons.1 hy with rfl | hy
        · exact hx
        · exact hp y hy
      · simp only [Config.mk.injEq, and_true, true_and]; omega
    · rintro ⟨a, b, ha, hp, rfl, rfl⟩
      cases a with
      | nil => simp at ha
      | cons x a =>
        refine ⟨⟨pos + 1, a ++ b, caps⟩,
          (mem_run_cls p pos _ caps _).2 ⟨x, a ++ b, hp x (by simp), by simp, rfl⟩, ?_⟩
        refine (ih _ _ _ _).2 ⟨a, b, by simpa using ha, ?_, rfl, ?_⟩
        · intro y hy; exact hp y (List.mem_cons_of_mem _ hy)
        · simp only [Config.mk.injEq, and_true, true_and]; omega

/-- The threads of `x{n}` for a one-character class. -/
theorem mem_run_rep (p : Char → Bool) (n pos : Nat) (rest : Str) (caps : List (Nat × Str))
    (c1 : Config) :
    c1 ∈ run (.rep n (.cls p)) ⟨pos, rest, caps⟩ ↔
      ∃ a b, a.length = n ∧ (∀ x ∈ a, p x = true) ∧ rest = a ++ b ∧
        c1 = ⟨pos + n, b, caps⟩ :=
  mem_times_cls p n pos rest caps c1

theorem mem_run_seq (a b : Regex) (c c1 : Config) :
    c1 ∈ run (.seq a b) c ↔ ∃ c2, c2 ∈ run a c ∧ c1 ∈ run b c2 := by
  simp only [run, List.mem_flatMap]

theorem mem_run_bot (c c1 : Config) : c1 ∈ run .bot c ↔ c.pos = 0 ∧ c1 = c := by
  by_cases h : c.pos = 0 <;> simp [run, h]

theorem mem_run_eot (c c1 : Config) : c1 ∈ run .eot c ↔ c.rest = [] ∧ c1 = c := by
  by_cases h : c.rest = [] <;> simp [run, h]

theorem run_plus_eq_nil_of_head (q : Char → Bool) (c : Config)
    (h : ∀ x xs, c.rest = x :: xs → q x = false) : run (.plus (.cls q)) c = [] := by
  rw [List.eq_nil_iff_forall_not_mem]
  intro c1 hc1
  obtain ⟨pos, rest, caps⟩ := c
  obtain ⟨a, b, ha, hp, rfl, -⟩ := (mem_run_plus q pos rest caps c1).1 hc1
  cases a with
  | nil => exact ha rfl
  | cons x a =>
    have h1 := h x (a ++ b) rfl
    have h2 := hp x (by simp)
    rw [h1] at h2
    exact Bool.false_ne_true h2

/-- A pattern that begins with `y+` has no thread where the text begins outside `y`. -/
theorem run_seq_plus_vanish (p q : Char → Bool) (k : Regex) (hpq : ∀ x, p x = true → q x = false)
    (c : Config) (hc : StartsIn p c) : run (.seq (.plus (.cls q)) k) c = [] := by
  obtain ⟨x, xs, hr, hx⟩ := hc
  have : run (.plus (.cls q)) c = [] := by
    apply run_plus_eq_nil_of_head
    intro y ys hy
    rw [hr] at hy
    simp only [List.cons.injEq] at hy
    rw [← hy.1]
    exact hpq x hx
  rw [run, this]
  rfl

theorem run_seq_cap_plus_vanish (i : Nat) (p q : Char → Bool) (k : Regex)
    (hpq : ∀ x, p x = true → q x = false)
    (c : Config) (hc : StartsIn p c) : run (.seq (.cap i (.plus (.cls q))) k) c = [] := by
  obtain ⟨x, xs, hr, hx⟩ := hc
  have : run (.plus (.cls q)) c = [] := by
    apply run_plus_eq_nil_of_head
    intro y ys hy
    rw [hr] at hy
    simp only [List.cons.injEq] at hy
    rw [← hy.1]
    exact hpq x hx
  rw [run, run, this]
  rfl

theorem run_eot_vanish (p : Char → Bool) (c : Config) (hc : StartsIn p c) :
    run .eot c = [] := by
  obtain ⟨x, xs, hr, -⟩ := hc
  simp [run, hr]

theorem run_cls_nil (p : Char → Bool) (pos : Nat) (caps : List (Nat × Str)) :
    run (.cls p) ⟨pos, [], caps⟩ = [] := rfl

theorem run_cls_cons (p : Char → Bool) (pos : Nat) (x : Char) (xs : Str)
    (caps : List (Nat × Str)) :
    run (.cls p) ⟨pos, x :: xs, caps⟩ = if p x then [⟨pos + 1, xs, caps⟩] else [] := rfl

theorem iter_cls_eq (p : Char → Bool) (caps : List (Nat × Str)) :
    ∀ (rest : Str) (fuel pos : Nat), rest.length < fuel →
      iter (run (.cls p)) fuel ⟨pos, rest, caps⟩ = greedyList p caps pos rest := by
  intro rest
  induction rest with
  | nil =>
    intro fuel pos h
    cases fuel with
    | zero => simp at h
    | succ fuel => simp [iter, run_cls_nil, greedyList]
  | cons x xs ih =>
    intro fuel pos h
    cases fuel with
    | zero => simp at h
    | succ fuel =>
      have hl : xs.length < fuel := by simp at h; omega
      by_cases hx : p x = true
      · simp [iter, run_cls_cons, greedyList, hx, ih fuel (pos + 1) hl]
      · simp [iter, run_cls_cons, greedyList, hx]

theorem run_plus_eq (p : Char → Bool) (pos : Nat) (rest : Str) (caps : List (Nat × Str)) :
    run (.plus (.cls p)) ⟨pos, rest, caps⟩ = greedyList p caps pos rest := by
  rw [run]
  exact iter_cls_eq p caps rest _ pos (Nat.lt_succ_self _)

theorem greedyList_of_head (p : Char → Bool) (caps : List (Nat × Str)) (pos : Nat) (b : Str)
    (hb : ∀ x xs, b = x :: xs → p x = false) : greedyList p caps pos b = [] := by
  cases b with
  | nil => rfl
  | cons x xs => simp [greedyList, hb x xs rfl]

/-- The preferred thread of `x+` takes the whole run, when the text after the run does not
go on in the class. -/
theorem greedyList_head (p : Char → Bool) (caps : List (Nat × Str)) (b : Str)
    (hb : ∀ x xs, b = x :: xs → p x = false) :
    ∀ (a : Str) (pos : Nat), a ≠ [] → (∀ x ∈ a, p x = true) →
      ∃ tl, greedyList p caps pos (a ++ b) = ⟨pos + a.length, b, caps⟩ :: tl := by
  intro a
  induction a with
  | nil => intro pos h; exact absurd rfl h
  | cons x a ih =>
    intro pos _ hp
    have hx : p x = true := hp x (by simp)
    by_cases ha : a = []
    · subst ha
      refine ⟨[], ?_⟩
      simp [greedyList, hx, greedyList_of_head p caps (pos + 1) b hb]
    · obtain ⟨tl, htl⟩ := ih (pos + 1) ha (fun y hy => hp y (List.mem_cons_of_mem _ hy))
      refine ⟨tl ++ [⟨pos + 1, a ++ b, caps⟩], ?_⟩
      rw [List.cons_append, greedyList, if_pos hx, htl]
      simp only [List.cons_append, List.length_cons, List.cons.injEq, Config.mk.injEq, and_true]
      omega

/-- When the continuation has no thread on a text that goes on in the class, only the
whole run is continued. -/
theorem greedyList_flatMap (p : Char → Bool) (caps : List (Nat × Str)) (b : Str)
    (hb : ∀ x xs, b = x :: xs → p x = false)
    (f : Config → List Config) (hv : ∀ c, StartsIn p c → f c = []) :
    ∀ (a : Str) (pos : Nat), a ≠ [] → (∀ x ∈ a, p x = true) →
      (greedyList p caps pos (a ++ b)).flatMap f = f ⟨pos + a.length, b, caps⟩ := by
  intro a
  induction a with
  | nil => intro pos h; exact absurd rfl h
  | cons x a ih =>
    intro pos _ hp
    have hx : p x = true := hp x (by simp)
    cases a with
    | nil =>
      simp [greedyList, hx, greedyList_of_head p caps (pos + 1) b hb]
    | cons y a =>
      have hy : p y = true := hp y (by simp)
      have h1 := ih (pos + 1) (by simp) (fun z hz => hp z (List.mem_cons_of_mem _ hz))
      have h2 : f ⟨pos + 1, (y :: a) ++ b, caps⟩ = [] := hv _ ⟨y, a ++ b, rfl, hy⟩
      rw [List.cons_append, greedyList]
      simp only [hx, if_true, List.flatMap_append, h1, List.flatMap_cons, List.flatMap_nil,
        List.append_nil]
      rw [h2, List.append_nil]
      congr 2
      simp only [List.length_cons]
      omega

theorem run_seq_plus_seg (p : Char → Bool) (k : Regex) (pos : Nat) (a b : Str)
    (caps : List (Nat × Str)) (ha : a ≠ []) (hp : ∀ x ∈ a, p x = true)
    (hb : ∀ x xs, b = x :: xs → p x = false) (hv : ∀ c, StartsIn p c → run k c = []) :
    run (.seq (.plus (.cls p)) k) ⟨pos, a ++ b, caps⟩ = run k ⟨pos + a.length, b, caps⟩ := by
  rw [run, run_plus_eq]
  exact greedyList_flatMap p caps b hb (run k) hv a pos ha hp

theorem run_seq_cap_plus_seg (i : Nat) (p : Char → Bool) (k : Regex) (pos : Nat) (a b : Str)
    (caps : List (Nat × Str)) (ha : a ≠ []) (hp : ∀ x ∈ a, p x = true)
    (hb : ∀ x xs, b = x :: xs → p x = false) (hv : ∀ c, StartsIn p c → run k c = []) :
    run (.seq (.cap i (.plus (.cls p))) k) ⟨pos, a ++ b, caps⟩ =
      run k ⟨pos + a.length, b, (i, a) :: caps⟩ := by
  rw [run, run, run_plus_eq, List.flatMap_map]
  rw [greedyList_flatMap p caps b hb _ _ a pos ha hp]
  · simp
  · intro c hc
    apply hv
    obtain ⟨x, xs, hr, hx⟩ := hc
    exact ⟨x, xs, hr, hx⟩

theorem mem_seq_bot (k : Regex) (c c1 : Config) :
    c1 ∈ run (.seq .bot k) c ↔ c.pos = 0 ∧ c1 ∈ run k c := by
  rw [mem_run_seq]
  constructor
  · rintro ⟨c2, h2, h1⟩
    obtain ⟨h0, rfl⟩ := (mem_run_bot c c2).1 h2
    exact ⟨h0, h1⟩
  · rintro ⟨h0, h1⟩
    exact ⟨c, (mem_run_bot c c).2 ⟨h0, rfl⟩, h1⟩

theorem mem_seq_plus (p : Char → Bool) (k : Regex) (pos : Nat) (rest : Str)
    (caps : List (Nat × Str)) (c1 : Config) :
    c1 ∈ run (.seq (.plus (.cls p)) k) ⟨pos, rest, caps⟩ ↔
      ∃ a b, a ≠ [] ∧ (∀ x ∈ a, p x = true) ∧ rest = a ++ b ∧
        c1 ∈ run k ⟨pos + a.length, b, caps⟩ := by
  rw [mem_run_seq]
  constructor
  · rintro ⟨c2, h2, h1⟩
    obtain ⟨a, b, ha, hp, hr, rfl⟩ := (mem_run_plus p pos rest caps c2).1 h2
    exact ⟨a, b, ha, hp, hr, h1⟩
  · rintro ⟨a, b, ha, hp, hr, h1⟩
    exact ⟨_, (mem_run_plus p pos rest caps _).2 ⟨a, b, ha, hp, hr, rfl⟩, h1⟩

theorem mem_seq_cap_plus (i : Nat) (p : Char → Bool) (k : Regex) (pos : Nat) (rest : Str)
    (caps : List (Nat × Str)) (c1 : Config) :
    c1 ∈ run (.seq (.cap i (.plus (.cls p))) k) ⟨pos, rest, caps⟩ ↔
      ∃ a b, a ≠ [] ∧ (∀ x ∈ a, p x = true) ∧ rest = a ++ b ∧
        c1 ∈ run k ⟨pos + a.length, b, (i, a) :: caps⟩ := by
  rw [mem_run_seq]
  constructor
  · rintro ⟨c2, h2, h1⟩
    obtain ⟨a, b, ha, hp, hr, rfl⟩ := (mem_run_cap_plus i p pos rest caps c2).1 h2
    exact ⟨a, b, ha, hp, hr, h1⟩
  · rintro ⟨a, b, ha, hp, hr, h1⟩
    exact ⟨_, (mem_run_cap_plus i p pos rest caps _).2 ⟨a, b, ha, hp, hr, rfl⟩, h1⟩

theorem mem_seq_rep (n : Nat) (p : Char → Bool) (k : Regex) (pos : Nat) (rest : Str)
    (caps : List (Nat × Str)) (c1 : Config) :
    c1 ∈ run (.seq (.rep n (.cls p)) k) ⟨pos, rest, caps⟩ ↔
      ∃ a b, a.length = n ∧ (∀ x ∈ a, p x = true) ∧ rest = a ++ b ∧
        c1 ∈ run k ⟨pos + n, b, caps⟩ := by
  rw [mem_run_seq]
  constructor
  · rintro ⟨c2, h2, h1⟩
    obtain ⟨a, b, ha, hp, hr, rfl⟩ := (mem_run_rep p n pos rest caps c2).1 h2
    exact ⟨a, b, ha, hp, hr, h1⟩
  · rintro ⟨a, b, ha, hp, hr, h1⟩
    exact ⟨_, (mem_run_rep p n pos rest caps _).2 ⟨a, b, ha, hp, hr, rfl⟩, h1⟩

theorem mem_seq_lit (ch : Char) (k : Regex) (pos : Nat) (rest : Str)
    (caps : List (Nat × Str)) (c1 : Config) :
    c1 ∈ run (.seq (lit ch) k) ⟨pos, rest, caps⟩ ↔
      ∃ b, rest = ch :: b ∧ c1 ∈ run k ⟨pos + 1, b, caps⟩ := by
  rw [mem_run_seq, lit]
  constructor
  · rintro ⟨c2, h2, h1⟩
    obtain ⟨x, b, hx, hr, rfl⟩ := (mem_run_cls _ pos rest caps c2).1 h2
    simp only [beq_iff_eq] at hx
    subst hx
    exact ⟨b, hr, h1⟩
  · rintro ⟨b, hr, h1⟩
    exact ⟨_, (mem_run_cls _ pos rest caps _).2 ⟨ch, b, by simp, hr, rfl⟩, h1⟩

/-! ## The leftmost match -/

theorem searchFrom_isSome (re : Regex) :
    ∀ (s : Str) (pos : Nat),
      (searchFrom re pos s).isSome = true ↔
        ∃ a b, s = a ++ b ∧ run re ⟨pos + a.length, b, []⟩ ≠ [] := by
  intro s
  induction s with
  | nil =>
    intro pos
    simp only [searchFrom, Option.isSome_map']
    constructor
    · intro h
      refine ⟨[], [], rfl, ?_⟩
      intro e
      simp only [List.length_nil, Nat.add_zero] at e
      simp [e] at h
    · rintro ⟨a, b, hab, h⟩
      obtain ⟨rfl, rfl⟩ := List.append_eq_nil.1 hab.symm
      cases hr : run re ⟨pos, [], []⟩ with
      | nil => exact absurd hr (by simpa using h)
      | cons c cs => simp
  | cons x xs ih =>
    intro pos
    rw [searchFrom]
    cases hr : run re ⟨pos, x :: xs, []⟩ with
    | cons c cs =>
      simp only [List.head?_cons, Option.isSome_some, true_iff]
      exact ⟨[], x :: xs, rfl, by simp [hr]⟩
    | nil =>
      simp only [List.head?_nil]
      rw [ih (pos + 1)]
      constructor
      · rintro ⟨a, b, rfl, h⟩
        refine ⟨x :: a, b, rfl, ?_⟩
        simpa [Nat.add_assoc, Nat.add_comm 1] using h
      · rintro ⟨a, b, hab, h⟩
        cases a with
        | nil =>
          simp only [List.nil_append] at hab
          subst hab
          simp [hr] at h
        | cons y a =>
          simp only [List.cons_append, List.cons.injEq] at hab
          refine ⟨a, b, hab.2, ?_⟩
          simpa [Nat.add_assoc, Nat.add_comm 1] using h

theorem searchFrom_bot_succ (k : Regex) :
    ∀ (s : Str) (pos : Nat), searchFrom (.seq .bot k) (pos + 1) s = none := by
  intro s
  induction s with
  | nil => intro pos; simp [searchFrom, run]
  | cons x xs ih => intro pos; simp [searchFrom, run, ih]

/-- A pattern that begins with `^` is only tried at offset 0. -/
theorem searchFrom_bot (k : Regex) (s : Str) :
    searchFrom (.seq .bot k) 0 s = (run k ⟨0, s, []⟩).head?.map fun c => (0, c) := by
  cases s with
  | nil => simp [searchFrom, run]
  | cons x xs =>
    rw [searchFrom]
    have h : run (.seq .bot k) ⟨0, x :: xs, []⟩ = run k ⟨0, x :: xs, []⟩ := by simp [run]
    rw [h]
    cases run k ⟨0, x :: xs, []⟩ with
    | nil => simp [searchFrom_bot_succ]
    | cons c cs => simp

/-! ## Character classes -/

theorem eq_of_toNat_eq {c d : Char} (h : c.toNat = d.toNat) : c = d := by
  have := congrArg Char.ofNat h
  simpa [Char.ofNat_toNat] using this

theorem char_le_iff (a b : Char) : a ≤ b ↔ a.toNat ≤ b.toNat := by
  rfl

theorem isSpace_iff (c : Char) : isSpace c = true ↔ IsWhitespace c := by
  constructor
  · intro h
    simp only [isSpace, Bool.or_eq_true, beq_iff_eq] at h
    rcases h with (((h | h) | h) | h) | h
    · exact Or.inr (Or.inl (eq_of_toNat_eq h))
    · exact Or.inr (Or.inr (Or.inl (eq_of_toNat_eq h)))
    · exact Or.inr (Or.inr (Or.inr (Or.inr (eq_of_toNat_eq h))))
    · exact Or.inr (Or.inr (Or.inr (Or.inl (eq_of_toNat_eq h))))
    · exact Or.inl (eq_of_toNat_eq h)
  · rintro (rfl | rfl | rfl | rfl | rfl) <;> rfl

theorem isDigit_iff (c : Char) : isDigit c = true ↔ IsDecimalDigit c := by
  simp only [isDigit, IsDecimalDigit, char_le_iff, Bool.and_eq_true, decide_eq_true_eq]
  have e0 : '0'.toNat = 48 := rfl
  have e9 : '9'.toNat = 57 := rfl
  rw [e0, e9]

theorem isAlpha_iff (c : Char) : isAlpha c = true ↔ IsLetter c := by
  simp only [isAlpha, IsLetter, char_le_iff, Bool.and_eq_true, Bool.or_eq_true,
    decide_eq_true_eq]
  have e1 : 'a'.toNat = 97 := rfl
  have e2 : 'z'.toNat = 122 := rfl
  have e3 : 'A'.toNat = 65 := rfl
  have e4 : 'Z'.toNat = 90 := rfl
  rw [e1, e2, e3, e4]

theorem isIdChar_iff (c : Char) : isIdChar c = true ↔ (IsLowerHexDigit c ∨ c = '-') := by
  have e0 : '0'.toNat = 48 := rfl
  have e9 : '9'.toNat = 57 := rfl
  have e1 : 'a'.toNat = 97 := rfl
  have e2 : 'f'.toNat = 102 := rfl
  have e3 : '-'.toNat = 45 := rfl
  have h : c.toNat = 45 ↔ c = '-' :=
    ⟨fun h => eq_of_toNat_eq (h.trans e3.symm), fun h => by rw [h]; rfl⟩
  simp only [isIdChar, IsLowerHexDigit, IsDecimalDigit, char_le_iff, Bool.and_eq_true,
    Bool.or_eq_true, decide_eq_true_eq, beq_iff_eq, e0, e9, e1, e2, h]

theorem isDot_iff (c : Char) : isDot c = true ↔ c ≠ '\n' := by
  have e : '\n'.toNat = 10 := rfl
  simp only [isDot, bne_iff_ne, ne_eq]
  constructor
  · intro h hc; exact h (by rw [hc]; rfl)
  · intro h hc; exact h (eq_of_toNat_eq (hc.trans e.symm))

theorem isSpace_of_isDigit (c : Char) (h : isDigit c = true) : isSpace c = false := by
  simp only [isDigit, Bool.and_eq_true, decide_eq_true_eq] at h
  simp only [isSpace, Bool.or_eq_false_iff, beq_eq_false_iff_ne, ne_eq]
  omega

theorem isDigit_of_isSpace (c : Char) (h : isSpace c = true) : isDigit c = false := by
  cases hd : isDigit c with
  | false => rfl
  | true => rw [isSpace_of_isDigit c hd] at h; exact absurd h Bool.false_ne_true

theorem isSpace_of_isAlpha (c : Char) (h : isAlpha c = true) : isSpace c = false := by
  simp only [isAlpha, Bool.and_eq_true, Bool.or_eq_true, decide_eq_true_eq] at h
  simp only [isSpace, Bool.or_eq_false_iff, beq_eq_false_iff_ne, ne_eq]
  omega

theorem isSpace_of_isIdChar (c : Char) (h : isIdChar c = true) : isSpace c = false := by
  simp only [isIdChar, Bool.and_eq_true, Bool.or_eq_true, decide_eq_true_eq, beq_iff_eq] at h
  simp only [isSpace, Bool.or_eq_false_iff, beq_eq_false_iff_ne, ne_eq]
  omega

theorem isAlpha_of_isDigit (c : Char) (h : isDigit c = true) : isAlpha c = false := by
  simp only [isDigit, Bool.and_eq_true, decide_eq_true_eq] at h
  cases ha : isAlpha c with
  | false => rfl
  | true =>
    simp only [isAlpha, Bool.and_eq_true, Bool.or_eq_true, decide_eq_true_eq] at ha
    omega

/-! ## The stats row pattern -/

theorem isNumberField_of (d : Str) (h : d ≠ []) (hp : ∀ x ∈ d, isDigit x = true) :
    IsNumberField d :=
  ⟨h, fun c hc => (isDigit_iff c).1 (hp c hc)⟩

theorem isGap_of (w : Str) (h : w ≠ []) (hp : ∀ x ∈ w, isSpace x = true) : IsGap w :=
  ⟨h, fun c hc => (isSpace_iff c).1 (hp c hc)⟩

theorem isName_of (n : Str) (h : n ≠ []) (hp : ∀ x ∈ n, isDot x = true) : IsName n :=
  ⟨h, fun c hc => (isDot_iff c).1 (hp c hc)⟩

/-- Every thread of `stat` on a line splits the line into the parts of a stats row and holds
the five fields and the name in its groups. -/
theorem mem_run_stat (line : Str) (c1 : Config) (h : c1 ∈ run stat ⟨0, line, []⟩) :
    ∃ d1 d2 d3 d4 d5 name, StatRow line d1 d2 d3 d4 d5 name ∧
      c1.caps = [(6, name), (5, d5), (4, d4), (3, d3), (2, d2), (1, d1)] := by
  unfold stat at h
  rw [mem_seq_bot] at h
  obtain ⟨-, h1⟩ := h
  obtain ⟨d1, r1, hd1, pd1, rfl, h2⟩ := (mem_seq_cap_plus _ _ _ _ _ _ _).1 h1
  clear h1
  obtain ⟨w1, r2, hw1, pw1, rfl, h3⟩ := (mem_seq_plus _ _ _ _ _ _).1 h2
  clear h2
  obtain ⟨d2, r3, hd2, pd2, rfl, h4⟩ := (mem_seq_cap_plus _ _ _ _ _ _ _).1 h3
  clear h3
  obtain ⟨w2, r4, hw2, pw2, rfl, h5⟩ := (mem_seq_plus _ _ _ _ _ _).1 h4
  clear h4
  obtain ⟨d3, r5, hd3, pd3, rfl, h6⟩ := (mem_seq_cap_plus _ _ _ _ _ _ _).1 h5
  clear h5
  obtain ⟨w3, r6, hw3, pw3, rfl, h7⟩ := (mem_seq_plus _ _ _ _ _ _).1 h6
  clear h6
  obtain ⟨d4, r7, hd4, pd4, rfl, h8⟩ := (mem_seq_cap_plus _ _ _ _ _ _ _).1 h7
  clear h7
  obtain ⟨w4, r8, hw4, pw4, rfl, h9⟩ := (mem_seq_plus _ _ _ _ _ _).1 h8
  clear h8
  obtain ⟨d5, r9, hd5, pd5, rfl, h10⟩ := (mem_seq_cap_plus _ _ _ _ _ _ _).1 h9
  clear h9
  obtain ⟨w5, r10, hw5, pw5, rfl, h11⟩ := (mem_seq_plus _ _ _ _ _ _).1 h10
  clear h10
  obtain ⟨name, r11, hn, pn, rfl, h12⟩ := (mem_seq_cap_plus _ _ _ _ _ _ _).1 h11
  clear h11
  obtain ⟨hr, rfl⟩ := (mem_run_eot _ _).1 h12
  simp only at hr
  subst hr
  refine ⟨d1, d2, d3, d4, d5, name, ⟨w1, w2, w3, w4, w5, ?_, isNumberField_of d1 hd1 pd1,
    isNumberField_of d2 hd2 pd2, isNumberField_of d3 hd3 pd3, isNumberField_of d4 hd4 pd4,
    isNumberField_of d5 hd5 pd5, isGap_of w1 hw1 pw1, isGap_of w2 hw2 pw2,
    isGap_of w3 hw3 pw3, isGap_of w4 hw4 pw4, isGap_of w5 hw5 pw5, isName_of name hn pn⟩, rfl⟩
  simp only [List.append_assoc, List.append_nil]

theorem digits_of_field {d : Str} (h : IsNumberField d) : ∀ x ∈ d, isDigit x = true :=
  fun c hc => (isDigit_iff c).2 (h.2 c hc)

theorem spaces_of_gap {w : Str} (h : IsGap w) : ∀ x ∈ w, isSpace x = true :=
  fun c hc => (isSpace_iff c).2 (h.2 c hc)

theorem dots_of_name {n : Str} (h : IsName n) : ∀ x ∈ n, isDot x = true :=
  fun c hc => (isDot_iff c).2 (h.2 c hc)

theorem exists_seq_plus (p : Char → Bool) (k : Regex) (a b : Str) (ha : a ≠ [])
    (hp : ∀ x ∈ a, p x = true)
    (hk : ∀ pos caps, ∃ c1, c1 ∈ run k ⟨pos, b, caps⟩) (pos : Nat) (caps : List (Nat × Str)) :
    ∃ c1, c1 ∈ run (.seq (.plus (.cls p)) k) ⟨pos, a ++ b, caps⟩ := by
  obtain ⟨c1, h⟩ := hk (pos + a.length) caps
  exact ⟨c1, (mem_seq_plus p k pos (a ++ b) caps c1).2 ⟨a, b, ha, hp, rfl, h⟩⟩

theorem exists_seq_cap_plus (i : Nat) (p : Char → Bool) (k : Regex) (a b : Str) (ha : a ≠ [])
    (hp : ∀ x ∈ a, p x = true)
    (hk : ∀ pos caps, ∃ c1, c1 ∈ run k ⟨pos, b, caps⟩) (pos : Nat) (caps : List (Nat × Str)) :
    ∃ c1, c1 ∈ run (.seq (.cap i (.plus (.cls p))) k) ⟨pos, a ++ b, caps⟩ := by
  obtain ⟨c1, h⟩ := hk (pos + a.length) ((i, a) :: caps)
  exact ⟨c1, (mem_seq_cap_plus i p k pos (a ++ b) caps c1).2 ⟨a, b, ha, hp, rfl, h⟩⟩

/-- A stats row has a thread of `stat`. -/
theorem run_stat_of_row (line d1 d2 d3 d4 d5 name : Str)
    (h : StatRow line d1 d2 d3 d4 d5 name) : ∃ c1, c1 ∈ run stat ⟨0, line, []⟩ := by
  obtain ⟨w1, w2, w3, w4, w5, rfl, f1, f2, f3, f4, f5, g1, g2, g3, g4, g5, hn⟩ := h
  simp only [List.append_assoc]
  have t : ∀ pos caps, ∃ c1, c1 ∈ run (.seq (.cap 6 (.plus (.cls isDot))) .eot)
      ⟨pos, name, caps⟩ := by
    intro pos caps
    exact ⟨_, (mem_seq_cap_plus _ _ _ _ _ _ _).2
      ⟨name, [], hn.1, dots_of_name hn, (List.append_nil _).symm,
        (mem_run_eot _ _).2 ⟨rfl, rfl⟩⟩⟩
  obtain ⟨c1, h⟩ :=
    exists_seq_cap_plus 1 isDigit _ d1 _ f1.1 (digits_of_field f1)
    (exists_seq_plus isSpace _ w1 _ g1.1 (spaces_of_gap g1)
    (exists_seq_cap_plus 2 isDigit _ d2 _ f2.1 (digits_of_field f2)
    (exists_seq_plus isSpace _ w2 _ g2.1 (spaces_of_gap g2)
    (exists_seq_cap_plus 3 isDigit _ d3 _ f3.1 (digits_of_field f3)
    (exists_seq_plus isSpace _ w3 _ g3.1 (spaces_of_gap g3)
    (exists_seq_cap_plus 4 isDigit _ d4 _ f4.1 (digits_of_field f4)
    (exists_seq_plus isSpace _ w4 _ g4.1 (spaces_of_gap g4)
    (exists_seq_cap_plus 5 isDigit _ d5 _ f5.1 (digits_of_field f5)
    (exists_seq_plus isSpace _ w5 _ g5.1 (spaces_of_gap g5) t))))))))) 0 []
  exact ⟨c1, (mem_seq_bot _ _ _).2 ⟨rfl, h⟩⟩

theorem stat_search (line : Str) :
    searchFrom stat 0 line = (run stat ⟨0, line, []⟩).head?.map fun c => (0, c) := by
  have h : run stat ⟨0, line, []⟩
      = run (.seq (.cap 1 (.plus (.cls isDigit))) (.seq (.plus (.cls isSpace))
        (.seq (.cap 2 (.plus (.cls isDigit))) (.seq (.plus (.cls isSpace))
        (.seq (.cap 3 (.plus (.cls isDigit))) (.seq (.plus (.cls isSpace))
        (.seq (.cap 4 (.plus (.cls isDigit))) (.seq (.plus (.cls isSpace))
        (.seq (.cap 5 (.plus (.cls isDigit))) (.seq (.plus (.cls isSpace))
        (.seq (.cap 6 (.plus (.cls isDot))) .eot))))))))))) ⟨0, line, []⟩ := by
    simp [stat, run]
  rw [h]
  exact searchFrom_bot _ line

/-- The stats row pattern matches exactly the stats rows of the specification. -/
theorem stat_MatchString_iff (line : Str) : stat.MatchString line = true ↔ IsStatRow line := by
  rw [Regex.MatchString, stat_search, Option.isSome_map']
  constructor
  · intro h
    cases hr : (run stat ⟨0, line, []⟩) with
    | nil => simp [hr] at h
    | cons c cs =>
      obtain ⟨d1, d2, d3, d4, d5, name, hrow, -⟩ := mem_run_stat line c (by simp [hr])
      exact ⟨d1, d2, d3, d4, d5, name, hrow⟩
  · rintro ⟨d1, d2, d3, d4, d5, name, hrow⟩
    obtain ⟨c1, hc1⟩ := run_stat_of_row line d1 d2 d3 d4 d5 name hrow
    cases hr : (run stat ⟨0, line, []⟩) with
    | nil => simp [hr] at hc1
    | cons c cs => simp

theorem stat_NumSubexp : stat.NumSubexp = 6 := by
  decide

/-- What the loop body sends for a line whose preferred thread holds the given groups. -/
theorem readChannelStatsLine_of_head (line d1 d2 d3 d4 d5 name : Str) (c : Config)
    (hc : (run stat ⟨0, line, []⟩).head? = some c)
    (hcaps : c.caps = [(6, name), (5, d5), (4, d4), (3, d3), (2, d2), (1, d1)]) :
    readChannelStatsLine line =
      some (channelSamples (ParseFloat d1).1 (ParseFloat d2).1 (ParseFloat d3).1
        (ParseFloat d4).1 (ParseFloat d5).1 name) := by
  simp [readChannelStatsLine, Regex.MatchString, Regex.FindStringSubmatch, stat_search, hc,
    stat_NumSubexp, Config.group, hcaps, List.lookup, List.range, List.range.loop, MustNewConstMetric,
    Desc.variableLabels, channelSamples]

theorem readChannelStatsLine_of_not_match (line : Str) (h : stat.MatchString line = false) :
    readChannelStatsLine line = some [] := by
  simp [readChannelStatsLine, h]

/-- A matching line sends the five samples of a stats row it can be read as. -/
theorem readChannelStatsLine_of_match (line : Str) (h : stat.MatchString line = true) :
    ∃ d1 d2 d3 d4 d5 name, StatRow line d1 d2 d3 d4 d5 name ∧
      readChannelStatsLine line =
        some (channelSamples (ParseFloat d1).1 (ParseFloat d2).1 (ParseFloat d3).1
          (ParseFloat d4).1 (ParseFloat d5).1 name) := by
  rw [Regex.MatchString, stat_search, Option.isSome_map'] at h
  cases hr : (run stat ⟨0, line, []⟩) with
  | nil => simp [hr] at h
  | cons c cs =>
    obtain ⟨d1, d2, d3, d4, d5, name, hrow, hcaps⟩ := mem_run_stat line c (by simp [hr])
    exact ⟨d1, d2, d3, d4, d5, name, hrow,
      readChannelStatsLine_of_head line d1 d2 d3 d4 d5 name c (by simp [hr]) hcaps⟩

/-! ## The preferred thread on a stats row -/

theorem run_seq_bot_zero (k : Regex) (rest : Str) (caps : List (Nat × Str)) :
    run (.seq .bot k) ⟨0, rest, caps⟩ = run k ⟨0, rest, caps⟩ := by
  simp [run]

theorem run_eot_nil (pos : Nat) (caps : List (Nat × Str)) :
    run .eot ⟨pos, [], caps⟩ = [⟨pos, [], caps⟩] := rfl

theorem head_of_append (q : Char → Bool) (a b : Str) (ha : a ≠ [])
    (hq : ∀ y ∈ a, q y = false) : ∀ x xs, a ++ b = x :: xs → q x = false := by
  intro x xs h
  cases a with
  | nil => exact absurd rfl ha
  | cons y a =>
    simp only [List.cons_append, List.cons.injEq] at h
    rw [← h.1]
    exact hq y (by simp)

theorem gap_head_not_digit (w b : Str) (g : IsGap w) :
    ∀ x xs, w ++ b = x :: xs → isDigit x = false :=
  head_of_append isDigit w b g.1 fun y hy => isDigit_of_isSpace y (spaces_of_gap g y hy)

theorem field_head_not_space (d b : Str) (f : IsNumberField d) :
    ∀ x xs, d ++ b = x :: xs → isSpace x = false :=
  head_of_append isSpace d b f.1 fun y hy => isSpace_of_isDigit y (digits_of_field f y hy)

/-- On a stats row whose name does not begin with whitespace, the preferred thread of `stat`
holds the five fields and the whole name. -/
theorem run_stat_row_head (d1 d2 d3 d4 d5 w1 w2 w3 w4 w5 name : Str)
    (f1 : IsNumberField d1) (f2 : IsNumberField d2) (f3 : IsNumberField d3)
    (f4 : IsNumberField d4) (f5 : IsNumberField d5)
    (g1 : IsGap w1) (g2 : IsGap w2) (g3 : IsGap w3) (g4 : IsGap w4) (g5 : IsGap w5)
    (hn : IsName name) (hh : ∀ x xs, name = x :: xs → isSpace x = false) :
    ∃ pos tl,
      run stat ⟨0, d1 ++ (w1 ++ (d2 ++ (w2 ++ (d3 ++ (w3 ++ (d4 ++ (w4 ++ (d5 ++
        (w5 ++ name))))))))), []⟩ =
      ⟨pos, [], [(6, name), (5, d5), (4, d4), (3, d3), (2, d2), (1, d1)]⟩ :: tl := by
  have vS : ∀ k c, StartsIn isDigit c → run (.seq (.plus (.cls isSpace)) k) c = [] :=
    fun k => run_seq_plus_vanish isDigit isSpace k isSpace_of_isDigit
  have vD : ∀ i k c, StartsIn isSpace c → run (.seq (.cap i (.plus (.cls isDigit))) k) c = [] :=
    fun i k => run_seq_cap_plus_vanish i isSpace isDigit k isDigit_of_isSpace
  unfold stat
  rw [run_seq_bot_zero]
  rw [run_seq_cap_plus_seg 1 isDigit _ _ d1 _ _ f1.1 (digits_of_field f1)
    (gap_head_not_digit w1 _ g1) (vS _)]
  rw [run_seq_plus_seg isSpace _ _ w1 _ _ g1.1 (spaces_of_gap g1)
    (field_head_not_space d2 _ f2) (vD _ _)]
  rw [run_seq_cap_plus_seg 2 isDigit _ _ d2 _ _ f2.1 (digits_of_field f2)
    (gap_head_not_digit w2 _ g2) (vS _)]
  rw [run_seq_plus_seg isSpace _ _ w2 _ _ g2.1 (spaces_of_gap g2)
    (field_head_not_space d3 _ f3) (vD _ _)]
  rw [run_seq_cap_plus_seg 3 isDigit _ _ d3 _ _ f3.1 (digits_of_field f3)
    (gap_head_not_digit w3 _ g3) (vS _)]
  rw [run_seq_plus_seg isSpace _ _ w3 _ _ g3.1 (spaces_of_gap g3)
    (field_head_not_space d4 _ f4) (vD _ _)]
  rw [run_seq_cap_plus_seg 4 isDigit _ _ d4 _ _ f4.1 (digits_of_field f4)
    (gap_head_not_digit w4 _ g4) (vS _)]
  rw [run_seq_plus_seg isSpace _ _ w4 _ _ g4.1 (spaces_of_gap g4)
    (field_head_not_space d5 _ f5) (vD _ _)]
  rw [run_seq_cap_plus_seg 5 isDigit _ _ d5 _ _ f5.1 (digits_of_field f5)
    (gap_head_not_digit w5 _ g5) (vS _)]
  rw [run, run_plus_eq]
  obtain ⟨tl, htl⟩ := greedyList_head isSpace
    [(5, d5), (4, d4), (3, d3), (2, d2), (1, d1)] name hh w5
    (0 + d1.length + w1.length + d2.length + w2.length + d3.length + w3.length + d4.length
      + w4.length + d5.length) g5.1 (spaces_of_gap g5)
  rw [htl, List.flatMap_cons]
  have h6 := run_seq_cap_plus_seg 6 isDot .eot
    (0 + d1.length + w1.length + d2.length + w2.length + d3.length + w3.length + d4.length
      + w4.length + d5.length + w5.length) name []
    [(5, d5), (4, d4), (3, d3), (2, d2), (1, d1)] hn.1 (dots_of_name hn)
    (by simp) (run_eot_vanish isDot)
  rw [List.append_nil] at h6
  rw [h6, run_eot_nil, List.singleton_append]
  exact ⟨_, _, rfl⟩

/-! ## Decimal renderings -/

theorem digitChar_digit (m : Nat) (h : m < 10) :
    isDigit (Nat.digitChar m) = true ∧ (Nat.digitChar m).toNat - 48 = m := by
  interval_cases m <;> exact ⟨rfl, rfl⟩

theorem foldl_decimal (ds : Str) :
    ∀ a : Nat, ds.foldl (fun acc c => 10 * acc + (c.toNat - 48)) a =
      a * 10 ^ ds.length + decimalValue ds := by
  induction ds with
  | nil => intro a; simp [decimalValue]
  | cons d ds ih =>
    intro a
    rw [decimalValue, List.foldl_cons, List.foldl_cons, ih, ih (10 * 0 + (d.toNat - 48))]
    simp only [List.length_cons, Nat.pow_succ]
    ring

theorem decimalValue_cons (d : Char) (ds : Str) :
    decimalValue (d :: ds) = (d.toNat - 48) * 10 ^ ds.length + decimalValue ds := by
  rw [decimalValue, List.foldl_cons, foldl_decimal]
  simp

theorem toDigitsCore_spec :
    ∀ (fuel n : Nat) (ds : Str), n < fuel → (∀ c ∈ ds, isDigit c = true) →
      (∀ c ∈ Nat.toDigitsCore 10 fuel n ds, isDigit c = true) ∧
      Nat.toDigitsCore 10 fuel n ds ≠ [] ∧
      decimalValue (Nat.toDigitsCore 10 fuel n ds) = n * 10 ^ ds.length + decimalValue ds := by
  intro fuel
  induction fuel with
  | zero => intro n ds h; omega
  | succ fuel ih =>
    intro n ds hn hds
    have hd := digitChar_digit (n % 10) (Nat.mod_lt _ (by norm_num))
    have hds2 : ∀ c ∈ Nat.digitChar (n % 10) :: ds, isDigit c = true := by
      intro c hc
      rcases List.mem_cons.1 hc with rfl | hc
      · exact hd.1
      · exact hds c hc
    rw [Nat.toDigitsCore]
    by_cases h0 : n / 10 = 0
    · simp only [h0, if_true]
      refine ⟨hds2, by simp, ?_⟩
      rw [decimalValue_cons, hd.2]
      have : n % 10 = n := by omega
      rw [this]
    · simp only [h0, if_false]
      have hlt : n / 10 < fuel := by omega
      obtain ⟨h1, h2, h3⟩ := ih (n / 10) (Nat.digitChar (n % 10) :: ds) hlt hds2
      refine ⟨h1, h2, ?_⟩
      rw [h3, decimalValue_cons, hd.2]
      simp only [List.length_cons, Nat.pow_succ]
      have e : n * 10 ^ ds.length = (10 * (n / 10) + n % 10) * 10 ^ ds.length := by
        rw [Nat.div_add_mod n 10]
      rw [e]
      ring

/-- The decimal rendering of a number is a number field that denotes it. -/
theorem toDigits_spec (n : Nat) :
    IsNumberField (Nat.toDigits 10 n) ∧ decimalValue (Nat.toDigits 10 n) = n := by
  obtain ⟨h1, h2, h3⟩ := toDigitsCore_spec (n + 1) n [] (Nat.lt_succ_self n) (by simp)
  refine ⟨isNumberField_of _ h2 h1, ?_⟩
  rw [Nat.toDigits, h3]
  simp [decimalValue]

theorem ParseFloat_field (d : Str) (f : IsNumberField d) :
    ParseFloat d =
      if float64Round (decimalValue d) < 2 ^ 1024 then
        (.fin (float64Round (decimalValue d)), none)
      else (.inf, some .ErrRange) := by
  have h : d ≠ [] ∧ d.all isDigit = true := ⟨f.1, by
    rw [List.all_eq_true]; exact digits_of_field f⟩
  rw [ParseFloat, if_pos h]

theorem float64Round_exact (n : Nat) (h : n < 2 ^ 53) : float64Round n = n := by
  rw [float64Round, if_pos h]

theorem isFloat64_of_lt (n : Nat) (h : n < 2 ^ 53) : IsFloat64 n :=
  ⟨float64Round_exact n h, lt_trans h (by norm_num)⟩

/-- The float parsed from the decimal rendering of an exactly representable number. -/
theorem ParseFloat_toDigits (n : Nat) (h : IsFloat64 n) :
    ParseFloat (Nat.toDigits 10 n) = (.fin n, none) := by
  rw [ParseFloat_field _ (toDigits_spec n).1, (toDigits_spec n).2, h.1, if_pos h.2]

/-! ## The status patterns -/

theorem searchFrom_bot_run (k : Regex) (s : Str) :
    searchFrom (.seq .bot k) 0 s =
      (run (.seq .bot k) ⟨0, s, []⟩).head?.map fun c => (0, c) := by
  rw [run_seq_bot_zero]
  exact searchFrom_bot k s

theorem MatchString_bot_iff (k : Regex) (s : Str) :
    (Regex.seq .bot k).MatchString s = true ↔ ∃ c1, c1 ∈ run (.seq .bot k) ⟨0, s, []⟩ := by
  rw [Regex.MatchString, searchFrom_bot_run, Option.isSome_map']
  cases run (.seq .bot k) ⟨0, s, []⟩ with
  | nil => simp
  | cons c cs => simp

theorem deployed_MatchString_iff (line : Str) :
    deployed.MatchString line = true ↔ DeployedRow line := by
  unfold deployed
  rw [MatchString_bot_iff]
  constructor
  · rintro ⟨c1, h⟩
    rw [mem_seq_bot] at h
    obtain ⟨-, h1⟩ := h
    obtain ⟨tok, r1, ht, pt, rfl, h2⟩ := (mem_seq_rep _ _ _ _ _ _ _).1 h1
    clear h1
    obtain ⟨w1, r2, hw1, pw1, rfl, h3⟩ := (mem_seq_plus _ _ _ _ _ _).1 h2
    clear h2
    obtain ⟨al, r3, hal, pal, rfl, h4⟩ := (mem_seq_plus _ _ _ _ _ _).1 h3
    clear h3
    obtain ⟨w2, r4, hw2, pw2, rfl, -⟩ := (mem_run_plus _ _ _ _ _).1 h4
    refine ⟨tok, w1, al, w2, r4, by simp only [List.append_assoc],
      ⟨ht, fun c hc => (isIdChar_iff c).1 (pt c hc)⟩, isGap_of w1 hw1 pw1,
      ⟨hal, fun c hc => (isAlpha_iff c).1 (pal c hc)⟩, isGap_of w2 hw2 pw2⟩
  · rintro ⟨tok, w1, al, w2, rest, rfl, ht, g1, ha, g2⟩
    simp only [List.append_assoc]
    refine ⟨⟨0 + 36 + w1.length + al.length + w2.length, rest, []⟩,
      (mem_seq_bot _ _ _).2 ⟨rfl, ?_⟩⟩
    refine (mem_seq_rep _ _ _ _ _ _ _).2
      ⟨tok, _, ht.1, fun c hc => (isIdChar_iff c).2 (ht.2 c hc), rfl, ?_⟩
    refine (mem_seq_plus _ _ _ _ _ _).2 ⟨w1, _, g1.1, spaces_of_gap g1, rfl, ?_⟩
    refine (mem_seq_plus _ _ _ _ _ _).2
      ⟨al, _, ha.1, fun c hc => (isAlpha_iff c).2 (ha.2 c hc), rfl, ?_⟩
    exact (mem_run_plus _ _ _ _ _).2 ⟨w2, rest, g2.1, spaces_of_gap g2, rfl, rfl⟩

theorem started_eq :
    started = .seq (.plus (.cls isSpace)) (.seq (lit 'S') (.seq (lit 't') (.seq (lit 'a')
      (.seq (lit 'r') (.seq (lit 't') (.seq (lit 'e') (.seq (lit 'd')
        (.plus (.cls isSpace))))))))) := rfl

theorem started_MatchString_iff (line : Str) :
    started.MatchString line = true ↔ HasStartedToken line := by
  rw [Regex.MatchString, searchFrom_isSome, started_eq]
  constructor
  · rintro ⟨a, b, rfl, h⟩
    obtain ⟨c1, hc1⟩ := List.exists_mem_of_ne_nil _ h
    obtain ⟨ws, r1, hws, pws, rfl, h1⟩ := (mem_seq_plus _ _ _ _ _ _).1 hc1
    obtain ⟨r2, rfl, h2⟩ := (mem_seq_lit _ _ _ _ _ _).1 h1
    obtain ⟨r3, rfl, h3⟩ := (mem_seq_lit _ _ _ _ _ _).1 h2
    obtain ⟨r4, rfl, h4⟩ := (mem_seq_lit _ _ _ _ _ _).1 h3
    obtain ⟨r5, rfl, h5⟩ := (mem_seq_lit _ _ _ _ _ _).1 h4
    obtain ⟨r6, rfl, h6⟩ := (mem_seq_lit _ _ _ _ _ _).1 h5
    obtain ⟨r7, rfl, h7⟩ := (mem_seq_lit _ _ _ _ _ _).1 h6
    obtain ⟨r8, rfl, h8⟩ := (mem_seq_lit _ _ _ _ _ _).1 h7
    obtain ⟨ws2, r9, hws2, pws2, rfl, -⟩ := (mem_run_plus _ _ _ _ _).1 h8
    cases ws2 with
    | nil => exact absurd rfl hws2
    | cons w2 ws2 =>
      refine ⟨a ++ ws.dropLast, ws2 ++ r9, ws.getLast hws, w2,
        (isSpace_iff _).1 (pws _ (List.getLast_mem hws)),
        (isSpace_iff _).1 (pws2 _ (by simp)), ?_⟩
      have e : ws = ws.dropLast ++ [ws.getLast hws] := (List.dropLast_append_getLast hws).symm
      conv_lhs => rw [e]
      simp [List.append_assoc]
  · rintro ⟨before, after, w1, w2, h1, h2, rfl⟩
    refine ⟨before, [w1] ++ "Started".toList ++ [w2] ++ after, by simp [List.append_assoc], ?_⟩
    apply List.ne_nil_of_mem (a := ⟨0 + before.length + 1 + 1 + 1 + 1 + 1 + 1 + 1 + 1 + 1,
      after, []⟩)
    refine (mem_seq_plus _ _ _ _ _ _).2
      ⟨[w1], "Started".toList ++ [w2] ++ after, by simp, ?_, by simp [List.append_assoc], ?_⟩
    · intro x hx
      rw [List.mem_singleton] at hx
      rw [hx]
      exact (isSpace_iff _).2 h1
    refine (mem_seq_lit _ _ _ _ _ _).2 ⟨_, rfl, ?_⟩
    refine (mem_seq_lit _ _ _ _ _ _).2 ⟨_, rfl, ?_⟩
    refine (mem_seq_lit _ _ _ _ _ _).2 ⟨_, rfl, ?_⟩
    refine (mem_seq_lit _ _ _ _ _ _).2 ⟨_, rfl, ?_⟩
    refine (mem_seq_lit _ _ _ _ _ _).2 ⟨_, rfl, ?_⟩
    refine (mem_seq_lit _ _ _ _ _ _).2 ⟨_, rfl, ?_⟩
    refine (mem_seq_lit _ _ _ _ _ _).2 ⟨_, rfl, ?_⟩
    refine (mem_run_plus _ _ _ _ _).2 ⟨[w2], after, by simp, ?_, rfl, rfl⟩
    intro x hx
    rw [List.mem_singleton] at hx
    rw [hx]
    exact (isSpace_iff _).2 h2

/-! ## readStatus -/

theorem readStatus_eq (lines : List Str) :
    readStatus lines = some (statusSamples (statusCounts lines).1 (statusCounts lines).2) := by
  simp [readStatus, MustNewConstMetric, Desc.variableLabels, statusSamples]

theorem statusCounts_foldl (lines : List Str) :
    ∀ acc : Nat × Nat,
      lines.foldl (fun acc line =>
        if deployed.MatchString line then
          (acc.1 + 1, if started.MatchString line then acc.2 + 1 else acc.2)
        else acc) acc =
      (acc.1 + lines.countP (fun l => deployed.MatchString l),
       acc.2 + lines.countP (fun l => deployed.MatchString l && started.MatchString l)) := by
  induction lines with
  | nil => intro acc; simp
  | cons l ls ih =>
    intro acc
    rw [List.foldl_cons, ih]
    cases hd : deployed.MatchString l <;> cases hs : started.MatchString l <;>
      simp [hd, hs, List.countP_cons] <;> omega

/-- The loop of `readStatus` counts the lines that match `deployed`, and among them those
that match `started`. -/
theorem statusCounts_eq (lines : List Str) :
    statusCounts lines =
      (lines.countP (fun l => deployed.MatchString l),
       lines.countP (fun l => deployed.MatchString l && started.MatchString l)) := by
  rw [statusCounts, statusCounts_foldl]
  simp

theorem statusCounts_append (xs ys : List Str) :
    statusCounts (xs ++ ys) =
      ((statusCounts xs).1 + (statusCounts ys).1, (statusCounts xs).2 + (statusCounts ys).2) := by
  simp [statusCounts_eq, List.countP_append]

theorem statusCounts_cons (l : Str) (ls : List Str) :
    statusCounts (l :: ls) =
      ((statusCounts [l]).1 + (statusCounts ls).1, (statusCounts [l]).2 + (statusCounts ls).2) :=
  statusCounts_append [l] ls

theorem statusCounts_single (l : Str) :
    statusCounts [l] =
      (if deployed.MatchString l then 1 else 0,
       if deployed.MatchString l && started.MatchString l then 1 else 0) := by
  simp [statusCounts_eq, List.countP_cons]

theorem statusCounts_le (lines : List Str) :
    (statusCounts lines).2 ≤ (statusCounts lines).1 ∧ (statusCounts lines).1 ≤ lines.length := by
  rw [statusCounts_eq]
  refine ⟨?_, List.countP_le_length _⟩
  apply List.countP_mono_left
  intro l _ h
  simp only [Bool.and_eq_true] at h
  exact h.1

theorem not_deployed_of_not_begins (l : Str) (h : ¬ BeginsWithIdToken l) :
    deployed.MatchString l = false := by
  cases hd : deployed.MatchString l with
  | false => rfl
  | true =>
    obtain ⟨tok, w1, al, w2, rest, rfl, ht, -⟩ := (deployed_MatchString_iff l).1 hd
    exact absurd ⟨tok, w1 ++ al ++ w2 ++ rest, by simp [List.append_assoc], ht⟩ h

/-! ## readChannelStats -/

theorem readChannelStatsLine_group (line : Str) :
    ∃ g, readChannelStatsLine line = some g ∧ RowGroup line g ∧
      g.length = (if stat.MatchString line then 5 else 0) := by
  cases h : stat.MatchString line with
  | true =>
    obtain ⟨d1, d2, d3, d4, d5, name, hrow, hg⟩ := readChannelStatsLine_of_match line h
    exact ⟨_, hg, Or.inl ⟨d1, d2, d3, d4, d5, name, hrow, rfl⟩, by simp [channelSamples]⟩
  | false =>
    refine ⟨[], readChannelStatsLine_of_not_match line h, Or.inr ⟨?_, rfl⟩, by simp⟩
    intro hrow
    rw [(stat_MatchString_iff line).2 hrow] at h
    exact Bool.noConfusion h

theorem readChannelStats_cons (line : Str) (lines : List Str) (g r : List Metric)
    (hg : readChannelStatsLine line = some g) (hr : readChannelStats lines = some r) :
    readChannelStats (line :: lines) = some (g ++ r) := by
  simp [readChannelStats, hg, hr]

/-- The samples of `readChannelStats`: the groups of the lines, concatenated in line order. -/
theorem readChannelStats_groups (lines : List Str) :
    ∃ groups : List (List Metric),
      readChannelStats lines = some groups.flatten ∧ List.Forall₂ RowGroup lines groups ∧
      groups.flatten.length = 5 * lines.countP (fun l => stat.MatchString l) := by
  induction lines with
  | nil => exact ⟨[], rfl, List.Forall₂.nil, rfl⟩
  | cons l ls ih =>
    obtain ⟨groups, h1, h2, h3⟩ := ih
    obtain ⟨g, hg, hrow, hlen⟩ := readChannelStatsLine_group l
    refine ⟨g :: groups, ?_, List.Forall₂.cons hrow h2, ?_⟩
    · rw [readChannelStats_cons l ls g _ hg h1]
      simp
    · simp only [List.flatten_cons, List.length_append, h3, hlen, List.countP_cons]
      cases stat.MatchString l
      · simp
      · simp; omega

theorem readChannelStats_append (xs ys : List Str) :
    ∃ a b, readChannelStats xs = some a ∧ readChannelStats ys = some b ∧
      readChannelStats (xs ++ ys) = some (a ++ b) := by
  induction xs with
  | nil =>
    obtain ⟨gs, h, -⟩ := readChannelStats_groups ys
    exact ⟨[], _, rfl, h, by simpa using h⟩
  | cons l ls ih =>
    obtain ⟨a, b, ha, hb, hab⟩ := ih
    obtain ⟨g, hg, -⟩ := readChannelStatsLine_group l
    refine ⟨g ++ a, b, readChannelStats_cons l ls g a hg ha, hb, ?_⟩
    rw [List.cons_append, readChannelStats_cons l (ls ++ ys) g (a ++ b) hg hab]
    simp

theorem rowGroup_desc (line : Str) (g : List Metric) (h : RowGroup line g) :
    ∀ m ∈ g, m.desc ≠ .up ∧ m.desc ≠ .channelsDeployed ∧ m.desc ≠ .channelsStarted := by
  rcases h with ⟨d1, d2, d3, d4, d5, name, -, rfl⟩ | ⟨-, rfl⟩
  · intro m hm
    simp only [channelSamples, List.mem_cons, List.mem_singleton, List.not_mem_nil,
      or_false] at hm
    rcases hm with rfl | rfl | rfl | rfl | rfl <;> simp
  · intro m hm
    simp at hm

theorem readChannelStats_desc (lines : List Str) (stats : List Metric)
    (h : readChannelStats lines = some stats) :
    ∀ m ∈ stats, m.desc ≠ .up ∧ m.desc ≠ .channelsDeployed ∧ m.desc ≠ .channelsStarted := by
  obtain ⟨groups, h1, h2, -⟩ := readChannelStats_groups lines
  rw [h1] at h
  simp only [Option.some.injEq] at h
  subst h
  clear h1
  induction h2 with
  | nil => intro m hm; simp at hm
  | cons hrow _ ih =>
    intro m hm
    simp only [List.flatten_cons, List.mem_append] at hm
    rcases hm with hm | hm
    · exact rowGroup_desc _ _ hrow m hm
    · exact ih m hm

/-! ## strings.Split -/

theorem splitLines_ne_nil (s : Str) : splitLines s ≠ [] := by
  cases s with
  | nil => simp [splitLines]
  | cons c cs =>
    rw [splitLines]
    by_cases h : c = '\n'
    · simp [h]
    · simp only [h, if_false]
      cases splitLines cs <;> simp

theorem splitLines_cons_of_ne (c : Char) (cs : Str) (h : c ≠ '\n') :
    ∃ p ps, splitLines cs = p :: ps ∧ splitLines (c :: cs) = (c :: p) :: ps := by
  cases hs : splitLines cs with
  | nil => exact absurd hs (splitLines_ne_nil cs)
  | cons p ps => exact ⟨p, ps, rfl, by simp [splitLines, h, hs]⟩

theorem splitLines_newline (cs : Str) : splitLines ('\n' :: cs) = [] :: splitLines cs := by
  simp [splitLines]

/-- The pieces of `strings.Split(s, "\n")`: one more than the newlines of `s`, none holds a
newline, and joined by newlines they give `s` back. -/
theorem splitLines_spec (s : Str) :
    (splitLines s).length = s.count '\n' + 1 ∧
    (∀ p ∈ splitLines s, ∀ c ∈ p, c ≠ '\n') ∧
    List.intercalate ['\n'] (splitLines s) = s := by
  induction s with
  | nil => simp [splitLines, List.intercalate]
  | cons c cs ih =>
    obtain ⟨h1, h2, h3⟩ := ih
    by_cases h : c = '\n'
    · subst h
      rw [splitLines_newline]
      refine ⟨by simp [h1], ?_, ?_⟩
      · intro p hp
        rcases List.mem_cons.1 hp with rfl | hp
        · simp
        · exact h2 p hp
      · obtain ⟨q, qs, hq⟩ := List.exists_cons_of_ne_nil (splitLines_ne_nil cs)
        rw [hq] at h3 ⊢
        simp only [List.intercalate, List.intersperse_cons_cons, List.flatten_cons,
          List.nil_append, List.singleton_append] at h3 ⊢
        rw [h3]
    · obtain ⟨p, ps, hp, hc⟩ := splitLines_cons_of_ne c cs h
      rw [hc]
      rw [hp] at h1 h2 h3
      refine ⟨?_, ?_, ?_⟩
      · simp only [List.length_cons] at h1 ⊢
        rw [h1, List.count_cons_of_ne (Ne.symm h)]
      · intro q hq
        rcases List.mem_cons.1 hq with rfl | hq
        · intro x hx
          rcases List.mem_cons.1 hx with rfl | hx
          · exact h
          · exact h2 p (by simp) x hx
        · exact h2 q (List.mem_cons_of_mem _ hq)
      · cases ps with
        | nil =>
          simp only [List.intercalate, List.intersperse_singleton, List.flatten_cons,
            List.flatten_nil, List.append_nil] at h3 ⊢
          rw [h3]
        | cons q qs =>
          simp only [List.intercalate, List.intersperse_cons_cons, List.flatten_cons,
            List.cons_append] at h3 ⊢
          rw [h3]

/-! ## The two row patterns exclude each other -/

theorem append_unique (p : Char → Bool) :
    ∀ (a a2 b b2 : Str), a ++ b = a2 ++ b2 →
      (∀ x ∈ a, p x = true) → (∀ x ∈ a2, p x = true) →
      (∀ x xs, b = x :: xs → p x = false) → (∀ x xs, b2 = x :: xs → p x = false) →
      a = a2 ∧ b = b2 := by
  intro a
  induction a with
  | nil =>
    intro a2 b b2 h _ ha2 hb _
    cases a2 with
    | nil => exact ⟨rfl, by simpa using h⟩
    | cons y a2 =>
      simp only [List.nil_append, List.cons_append] at h
      have h1 := hb y _ h
      rw [ha2 y (by simp)] at h1
      exact absurd h1 (by simp)
  | cons x a ih =>
    intro a2 b b2 h ha ha2 hb hb2
    cases a2 with
    | nil =>
      simp only [List.nil_append, List.cons_append] at h
      have h1 := hb2 x _ h.symm
      rw [ha x (by simp)] at h1
      exact absurd h1 (by simp)
    | cons y a2 =>
      simp only [List.cons_append, List.cons.injEq] at h
      obtain ⟨e1, e2⟩ := ih a2 b b2 h.2 (fun z hz => ha z (List.mem_cons_of_mem _ hz))
        (fun z hz => ha2 z (List.mem_cons_of_mem _ hz)) hb hb2
      exact ⟨by rw [h.1, e1], e2⟩

theorem not_deployed_and_stat (line : Str) (hd : DeployedRow line) (hs : IsStatRow line) :
    False := by
  obtain ⟨tok, w1, al, w2, rest, e1, ht, g1, ha, -⟩ := hd
  obtain ⟨d1, d2, d3, d4, d5, name, v1, v2, v3, v4, v5, e2, f1, f2, -, -, -, k1, -⟩ := hs
  rw [e1] at e2
  simp only [List.append_assoc] at e2
  have hns : ∀ c, isSpace c = false → (fun c => !isSpace c) c = true := by
    intro c hc; simp [hc]
  have hsn : ∀ c, isSpace c = true → (fun c => !isSpace c) c = false := by
    intro c hc; simp [hc]
  obtain ⟨-, e3⟩ := append_unique (fun c => !isSpace c) tok d1 _ _ e2
    (fun x hx => hns x (isSpace_of_isIdChar x ((isIdChar_iff x).2 (ht.2 x hx))))
    (fun x hx => hns x (isSpace_of_isDigit x (digits_of_field f1 x hx)))
    (head_of_append _ w1 _ g1.1 (fun y hy => hsn y (spaces_of_gap g1 y hy)))
    (head_of_append _ v1 _ k1.1 (fun y hy => hsn y (spaces_of_gap k1 y hy)))
  obtain ⟨-, e4⟩ := append_unique isSpace w1 v1 _ _ e3 (spaces_of_gap g1) (spaces_of_gap k1)
    (head_of_append _ al _ ha.1
      (fun y hy => isSpace_of_isAlpha y ((isAlpha_iff y).2 (ha.2 y hy))))
    (head_of_append _ d2 _ f2.1 (fun y hy => isSpace_of_isDigit y (digits_of_field f2 y hy)))
  obtain ⟨ha1, ha2⟩ := ha
  have hf1 := f2.1
  cases al with
  | nil => exact ha1 rfl
  | cons x al =>
    cases d2 with
    | nil => exact hf1 rfl
    | cons y d2 =>
      simp only [List.cons_append, List.cons.injEq] at e4
      have hx : isAlpha x = true := (isAlpha_iff x).2 (ha2 x (by simp))
      have hy : isDigit y = true := digits_of_field f2 y (by simp)
      rw [e4.1, isAlpha_of_isDigit y hy] at hx
      exact Bool.noConfusion hx

/-! ## float64 -/

theorem float64Round_of_ge (n : Nat) (h : 2 ^ 53 ≤ n) :
    float64Round n =
      (if 2 ^ (Nat.log2 n - 52 - 1) < n % 2 ^ (Nat.log2 n - 52) ∨
          (n % 2 ^ (Nat.log2 n - 52) = 2 ^ (Nat.log2 n - 52 - 1) ∧
            n / 2 ^ (Nat.log2 n - 52) % 2 = 1)
        then n / 2 ^ (Nat.log2 n - 52) + 1 else n / 2 ^ (Nat.log2 n - 52)) *
        2 ^ (Nat.log2 n - 52) := by
  rw [float64Round, if_neg (by omega)]

theorem float64Round_bounds (n : Nat) (h : 2 ^ 53 ≤ n) :
    2 ^ Nat.log2 n ≤ float64Round n ∧ float64Round n ≤ 2 ^ (Nat.log2 n + 1) ∧
    n / 2 ^ (Nat.log2 n - 52) * 2 ^ (Nat.log2 n - 52) ≤ float64Round n ∧
    float64Round n ≤ (n / 2 ^ (Nat.log2 n - 52) + 1) * 2 ^ (Nat.log2 n - 52) := by
  have hn : n ≠ 0 := by
    intro h0; rw [h0] at h; simp at h
  have hl : 53 ≤ Nat.log2 n := (Nat.le_log2 hn).2 h
  have h1 : 2 ^ Nat.log2 n ≤ n := Nat.log2_self_le hn
  have h2 : n < 2 ^ (Nat.log2 n + 1) := Nat.lt_log2_self
  have hpos : 0 < 2 ^ (Nat.log2 n - 52) := Nat.pow_pos (by norm_num)
  have e1 : 2 ^ Nat.log2 n = 2 ^ 52 * 2 ^ (Nat.log2 n - 52) := by
    rw [← Nat.pow_add]; congr 1; omega
  have e2 : 2 ^ (Nat.log2 n + 1) = 2 ^ 53 * 2 ^ (Nat.log2 n - 52) := by
    rw [← Nat.pow_add]; congr 1; omega
  have q1 : 2 ^ 52 ≤ n / 2 ^ (Nat.log2 n - 52) := by
    rw [Nat.le_div_iff_mul_le hpos, ← e1]; exact h1
  have q2 : n / 2 ^ (Nat.log2 n - 52) < 2 ^ 53 := by
    rw [Nat.div_lt_iff_lt_mul hpos, ← e2]; exact h2
  rw [float64Round_of_ge n h, e1, e2]
  split
  · refine ⟨Nat.mul_le_mul_right _ (by omega), Nat.mul_le_mul_right _ (by omega),
      Nat.mul_le_mul_right _ (by omega), le_refl _⟩
  · refine ⟨Nat.mul_le_mul_right _ q1, Nat.mul_le_mul_right _ (by omega), le_refl _,
      Nat.mul_le_mul_right _ (by omega)⟩

theorem float64Round_mono (m n : Nat) (h : m ≤ n) : float64Round m ≤ float64Round n := by
  by_cases hn : n < 2 ^ 53
  · rw [float64Round_exact n hn, float64Round_exact m (by omega)]; exact h
  have hn2 : 2 ^ 53 ≤ n := by omega
  obtain ⟨bn1, bn2, bn3, bn4⟩ := float64Round_bounds n hn2
  have hn0 : n ≠ 0 := by
    intro h0; rw [h0] at hn2; simp at hn2
  have hln : 53 ≤ Nat.log2 n := (Nat.le_log2 hn0).2 hn2
  by_cases hm : m < 2 ^ 53
  · rw [float64Round_exact m hm]
    have : 2 ^ 53 ≤ 2 ^ Nat.log2 n := Nat.pow_le_pow_right (by norm_num) hln
    omega
  have hm2 : 2 ^ 53 ≤ m := by omega
  obtain ⟨bm1, bm2, bm3, bm4⟩ := float64Round_bounds m hm2
  have hm0 : m ≠ 0 := by
    intro h0; rw [h0] at hm2; simp at hm2
  have hlm : Nat.log2 m ≤ Nat.log2 n :=
    (Nat.le_log2 hn0).2 (le_trans (Nat.log2_self_le hm0) h)
  rcases Nat.lt_or_eq_of_le hlm with hlt | heq
  · have : 2 ^ (Nat.log2 m + 1) ≤ 2 ^ Nat.log2 n := Nat.pow_le_pow_right (by norm_num) hlt
    omega
  · rw [heq] at bm3 bm4
    have hq : m / 2 ^ (Nat.log2 n - 52) ≤ n / 2 ^ (Nat.log2 n - 52) := Nat.div_le_div_right h
    rcases Nat.lt_or_eq_of_le hq with hqlt | hqeq
    · have : (m / 2 ^ (Nat.log2 n - 52) + 1) * 2 ^ (Nat.log2 n - 52) ≤
          n / 2 ^ (Nat.log2 n - 52) * 2 ^ (Nat.log2 n - 52) := Nat.mul_le_mul_right _ hqlt
      omega
    · have hr : m % 2 ^ (Nat.log2 n - 52) ≤ n % 2 ^ (Nat.log2 n - 52) := by
        have e1 := Nat.div_add_mod m (2 ^ (Nat.log2 n - 52))
        have e2 := Nat.div_add_mod n (2 ^ (Nat.log2 n - 52))
        rw [hqeq] at e1
        omega
      rw [float64Round_of_ge n hn2, float64Round_of_ge m hm2, heq, hqeq]
      apply Nat.mul_le_mul_right
      split
      · split
        · exact le_refl _
        · rename_i hup hnup
          exfalso
          apply hnup
          rcases hup with hup | ⟨hup1, hup2⟩
          · left; omega
          · rcases Nat.lt_or_eq_of_le hr with hrlt | hreq
            · left; omega
            · right; exact ⟨by omega, hup2⟩
      · split
        · omega
        · exact le_refl _

theorem float64OfInt_mono (m n : Nat) (h : m ≤ n) :
    Float64.le (float64OfInt m) (float64OfInt n) :=
  float64Round_mono m n h

/-! ## The claims -/

/-- C1. When `fetchStatLines` returns an error (the temporary file cannot be created, the
command fails or is killed, or its output splits into fewer than 3 lines), `Collect` sends
exactly one sample, the gauge `mirth_up` with value 0, so no `channels_deployed`,
`channels_started` or per-channel sample. -/
theorem Collect_fetch_error (w : World) (e : FetchError) (h : fetchStatLines w = .error e) :
    Collect w = some [⟨.up, .GaugeValue, .fin 0, []⟩] ∧ Desc.up.fqName = "mirth_up" ∧
    (w = .tempFileFails ∨ w = .commandFails ∨
      ∃ stdout, w = .commandSucceeds stdout ∧ (splitLines stdout).length < 3) := by
  refine ⟨?_, rfl, ?_⟩
  · simp [Collect, h, MustNewConstMetric, Desc.variableLabels]
  · cases w with
    | tempFileFails => exact Or.inl rfl
    | commandFails => exact Or.inr (Or.inl rfl)
    | commandSucceeds stdout =>
      refine Or.inr (Or.inr ⟨stdout, rfl, ?_⟩)
      by_contra hlen
      simp [fetchStatLines, hlen] at h

theorem Collect_fetch_error_witness :
    Collect .commandFails = some [⟨.up, .GaugeValue, .fin 0, []⟩] :=
  (Collect_fetch_error .commandFails .command rfl).1

/-- C2. After a successful fetch `Collect` sends the gauge `mirth_up` with value 1, then the
samples of `readStatus` on the lines (`mirth_channels_deployed`, `mirth_channels_started`),
then the samples of `readChannelStats` on the same lines: `mirth_up` occurs once and there
are 3 + 5 * (number of lines that match the stats row pattern) samples. -/
theorem Collect_fetch_ok (w : World) (lines : List Str) (h : fetchStatLines w = .ok lines) :
    ∃ status stats,
      readStatus lines = some status ∧ readChannelStats lines = some stats ∧
      Collect w = some (⟨.up, .GaugeValue, .fin 1, []⟩ :: (status ++ stats)) ∧
      status.map (fun m => m.desc.fqName) =
        ["mirth_channels_deployed", "mirth_channels_started"] ∧
      (⟨.up, .GaugeValue, .fin 1, []⟩ :: (status ++ stats)).countP (fun m => m.desc = .up) = 1 ∧
      (⟨.up, .GaugeValue, .fin 1, []⟩ :: (status ++ stats) : List Metric).length =
        3 + 5 * lines.countP (fun l => stat.MatchString l) := by
  obtain ⟨groups, hg, -, hlen⟩ := readChannelStats_groups lines
  have hdesc := readChannelStats_desc lines _ hg
  refine ⟨_, _, readStatus_eq lines, hg, ?_, rfl, ?_, ?_⟩
  · simp [Collect, h, MustNewConstMetric, Desc.variableLabels, readStatus_eq, hg]
  · rw [List.countP_cons_of_pos _ _ (by simp), List.countP_append]
    have h0 : groups.flatten.countP (fun m => decide (m.desc = .up)) = 0 := by
      rw [List.countP_eq_zero]
      intro m hm
      simpa using (hdesc m hm).1
    rw [h0]
    simp [statusSamples]
  · simp only [List.length_cons, List.length_append, hlen, statusSamples, List.length_nil]
    omega

theorem Collect_fetch_ok_witness :
    ∃ status stats,
      readStatus ["a".toList, "b".toList, "1 2 3 4 5 X".toList] = some status ∧
      readChannelStats ["a".toList, "b".toList, "1 2 3 4 5 X".toList] = some stats ∧
      Collect (.commandSucceeds "a\nb\n1 2 3 4 5 X".toList) =
        some (⟨.up, .GaugeValue, .fin 1, []⟩ :: (status ++ stats)) ∧
      status.map (fun m => m.desc.fqName) =
        ["mirth_channels_deployed", "mirth_channels_started"] ∧
      (⟨.up, .GaugeValue, .fin 1, []⟩ :: (status ++ stats)).countP (fun m => m.desc = .up) = 1 ∧
      (⟨.up, .GaugeValue, .fin 1, []⟩ :: (status ++ stats) : List Metric).length =
        3 + 5 * ["a".toList, "b".toList, "1 2 3 4 5 X".toList].countP
          (fun l => stat.MatchString l) :=
  Collect_fetch_ok (.commandSucceeds "a\nb\n1 2 3 4 5 X".toList)
    ["a".toList, "b".toList, "1 2 3 4 5 X".toList] rfl

/-- C3. For the standard output of a command that succeeded, `fetchStatLines` returns an error
exactly when splitting the text at newlines yields fewer than 3 pieces, and otherwise returns
the pieces of the split in order (one more piece than there are newlines, none holding a
newline, giving the text back when joined by newlines). An output of only 2 pieces is an
error, and `Collect` then sends `mirth_up` 0 alone: the parsers are not reached. (The lines
are the pieces of the split: two lines that each end in a newline are 3 pieces.) -/
theorem fetchStatLines_split (stdout : Str) :
    ((∃ e, fetchStatLines (.commandSucceeds stdout) = .error e) ↔
      (splitLines stdout).length < 3) ∧
    (3 ≤ (splitLines stdout).length →
      fetchStatLines (.commandSucceeds stdout) = .ok (splitLines stdout)) ∧
    ((splitLines stdout).length = 2 →
      fetchStatLines (.commandSucceeds stdout) = .error (.unexpectedOutput stdout) ∧
      Collect (.commandSucceeds stdout) = some [⟨.up, .GaugeValue, .fin 0, []⟩]) ∧
    (splitLines stdout).length = stdout.count '\n' + 1 ∧
    (∀ p ∈ splitLines stdout, ∀ c ∈ p, c ≠ '\n') ∧
    List.intercalate ['\n'] (splitLines stdout) = stdout ∧
    fetchStatLines (.commandSucceeds "a\nb\n".toList) = .ok ["a".toList, "b".toList, []] := by
  obtain ⟨s1, s2, s3⟩ := splitLines_spec stdout
  refine ⟨?_, ?_, ?_, s1, s2, s3, rfl⟩
  · by_cases h : (splitLines stdout).length < 3
    · simp [fetchStatLines, h]
    · simp [fetchStatLines, h]
  · intro h
    have : ¬ (splitLines stdout).length < 3 := by omega
    simp [fetchStatLines, this]
  · intro h
    have h3 : (splitLines stdout).length < 3 := by omega
    have he : fetchStatLines (.commandSucceeds stdout) = .error (.unexpectedOutput stdout) := by
      simp [fetchStatLines, h3]
    exact ⟨he, by simp [Collect, he, MustNewConstMetric, Desc.variableLabels]⟩

theorem fetchStatLines_split_witness :
    (splitLines "one\ntwo".toList).length = 2 ∧
    fetchStatLines (.commandSucceeds "one\ntwo".toList) =
      .error (.unexpectedOutput "one\ntwo".toList) ∧
    Collect (.commandSucceeds "one\ntwo".toList) = some [⟨.up, .GaugeValue, .fin 0, []⟩] :=
  ⟨by decide, (fetchStatLines_split "one\ntwo".toList).2.2.1 (by decide)⟩

/-- C10. No line is both a deployed-channel row and a stats row: no string matches both the
pattern of `readStatus` and the pattern of `readChannelStats`. A line counted as deployed
sends no per-channel sample, and a line that sends per-channel samples is counted neither as
deployed nor as started. -/
theorem deployed_stat_disjoint (line : Str) :
    ¬ (deployed.MatchString line = true ∧ stat.MatchString line = true) ∧
    (deployed.MatchString line = true → readChannelStats [line] = some []) ∧
    (stat.MatchString line = true → statusCounts [line] = (0, 0)) := by
  have key : ¬ (deployed.MatchString line = true ∧ stat.MatchString line = true) := by
    rintro ⟨hd, hs⟩
    exact not_deployed_and_stat line ((deployed_MatchString_iff line).1 hd)
      ((stat_MatchString_iff line).1 hs)
  refine ⟨key, ?_, ?_⟩
  · intro hd
    have hs : stat.MatchString line = false := by
      cases h : stat.MatchString line with
      | false => rfl
      | true => exact absurd ⟨hd, h⟩ key
    simp [readChannelStats, readChannelStatsLine_of_not_match line hs]
  · intro hs
    have hd : deployed.MatchString line = false := by
      cases h : deployed.MatchString line with
      | false => rfl
      | true => exact absurd ⟨h, hs⟩ key
    simp [statusCounts_single, hd]

theorem deployed_stat_disjoint_witness :
    readChannelStats ["3a9f1c00-1111-2222-3333-444455556666 Running Started x".toList]
      = some [] ∧
    statusCounts ["10 2 0 8 0 Lab Results".toList] = (0, 0) :=
  ⟨(deployed_stat_disjoint _).2.1 (by decide), (deployed_stat_disjoint _).2.2 (by decide)⟩

/-- C4 as stated fails: a line whose identifier has upper-case hex digits is a
deployed-channel row in the words of the claim, and `readStatus` counts it neither as
deployed nor as started. -/
theorem readStatus_upper_case_id :
    DeployedRowAsWorded
      "3A9F1C00-1111-2222-3333-444455556666 Running Started more text".toList ∧
    readStatus ["3A9F1C00-1111-2222-3333-444455556666 Running Started more text".toList] =
      some [⟨.channelsDeployed, .GaugeValue, .fin 0, []⟩,
        ⟨.channelsStarted, .GaugeValue, .fin 0, []⟩] := by
  refine ⟨⟨"3A9F1C00-1111-2222-3333-444455556666".toList, " ".toList, "Running".toList,
    " ".toList, "Started more text".toList, by decide, ?_, ?_, ?_, ?_⟩, by decide⟩
  · unfold IsHexToken; decide
  · unfold IsGap; decide
  · unfold IsWord; decide
  · unfold IsGap; decide

theorem not_begins_foo_bar : ¬ BeginsWithIdToken "foo bar".toList := by
  rintro ⟨tok, rest, e, hl, -⟩
  have h := congrArg List.length e
  simp only [List.length_append, hl] at h
  have h7 : "foo bar".toList.length = 7 := by decide
  omega

open Classical in
/-- C4, amended. The deployed count `readStatus` sends is the number of lines that begin with
a 36-character token of decimal digits, lower-case letters `a` to `f` and hyphens, followed
by whitespace, one or more alphabetic characters and whitespace (the count is sent as a
`float64`, exact below `2^53` lines). A line that does not begin with such an identifier,
like `foo bar`, adds to neither the deployed nor the started count. -/
theorem readStatus_deployed_count (lines before after : List Str) (l : Str) :
    readStatus lines =
      some [⟨.channelsDeployed, .GaugeValue,
          float64OfInt (lines.countP fun x => decide (DeployedRow x)), []⟩,
        ⟨.channelsStarted, .GaugeValue, float64OfInt (statusCounts lines).2, []⟩] ∧
    (lines.length < 2 ^ 53 →
      float64OfInt (lines.countP fun x => decide (DeployedRow x)) =
        .fin (lines.countP fun x => decide (DeployedRow x))) ∧
    (¬ BeginsWithIdToken l →
      statusCounts (before ++ l :: after) = statusCounts (before ++ after) ∧
      readStatus (before ++ l :: after) = readStatus (before ++ after)) ∧
    ¬ BeginsWithIdToken "foo bar".toList := by
  have hc : (lines.countP fun x => decide (DeployedRow x)) = (statusCounts lines).1 := by
    rw [statusCounts_eq]
    apply List.countP_congr
    intro x _
    simp only [decide_eq_true_eq]
    exact (deployed_MatchString_iff x).symm
  refine ⟨?_, ?_, ?_, not_begins_foo_bar⟩
  · rw [hc, readStatus_eq]
    rfl
  · intro hlen
    have h1 := (statusCounts_le lines).2
    rw [hc, float64OfInt, float64Round_exact _ (by omega)]
  · intro hb
    have hd := not_deployed_of_not_begins l hb
    have e : statusCounts (before ++ l :: after) = statusCounts (before ++ after) := by
      rw [statusCounts_append, statusCounts_cons, statusCounts_single, statusCounts_append]
      simp [hd]
    exact ⟨e, by rw [readStatus_eq, readStatus_eq, e]⟩

theorem readStatus_deployed_count_witness :
    statusCounts ["x".toList, "foo bar".toList] = statusCounts ["x".toList] ∧
    readStatus ["x".toList, "foo bar".toList] = readStatus ["x".toList] :=
  (readStatus_deployed_count [] ["x".toList] [] "foo bar".toList).2.2.1 not_begins_foo_bar

theorem hasStartedTokenAsWorded_of_token (line : Str) (h : HasStartedToken line) :
    HasStartedTokenAsWorded line := by
  obtain ⟨before, after, w1, w2, h1, h2, rfl⟩ := h
  refine ⟨before ++ [w1], w2 :: after, by simp [List.append_assoc], ?_, ?_⟩
  · intro c hc
    have e : (before ++ [w1]).getLast? = some w1 := by simp
    rw [e] at hc
    simp only [Option.some.injEq] at hc
    rw [← hc]
    exact h1
  · intro c hc
    simp only [List.head?_cons, Option.some.injEq] at hc
    rw [← hc]
    exact h2

/-- C5 as stated fails: the deployed-channel row
`3a9f1c00-1111-2222-3333-444455556666 Running Started` holds the whitespace-delimited token
`Started` (whitespace before it, the end of the line after it), and `readStatus` counts the
row as deployed and not as started. -/
theorem readStatus_started_at_end :
    DeployedRow "3a9f1c00-1111-2222-3333-444455556666 Running Started".toList ∧
    HasStartedTokenAsWorded "3a9f1c00-1111-2222-3333-444455556666 Running Started".toList ∧
    readStatus ["3a9f1c00-1111-2222-3333-444455556666 Running Started".toList] =
      some [⟨.channelsDeployed, .GaugeValue, .fin 1, []⟩,
        ⟨.channelsStarted, .GaugeValue, .fin 0, []⟩] := by
  refine ⟨(deployed_MatchString_iff _).1 (by decide),
    ⟨"3a9f1c00-1111-2222-3333-444455556666 Running ".toList, [], by decide, ?_, ?_⟩,
    by decide⟩
  · intro c hc
    have e : "3a9f1c00-1111-2222-3333-444455556666 Running ".toList.getLast? = some ' ' := by
      decide
    rw [e] at hc
    simp only [Option.some.injEq] at hc
    rw [← hc]
    decide
  · intro c hc
    simp at hc

/-- C5, amended. A deployed-channel row is counted as started exactly when the line contains
`Started` with a whitespace character directly before it and directly after it, anywhere in
the line: the row adds one to the deployed count, and one to the started count if and only
if it has `Started` so placed. A `Started` so placed is a whitespace-delimited token of the
line; one that ends the line has no whitespace after it and is not counted. The line
`3a9f1c00-1111-2222-3333-444455556666 Running Started more text` counts as deployed and
started; with `Stopped` for `Started` it counts as deployed and not as started. -/
theorem readStatus_started (before after : List Str) (line : Str) (h : DeployedRow line) :
    (statusCounts (before ++ line :: after)).1 = (statusCounts (before ++ after)).1 + 1 ∧
    ((statusCounts (before ++ line :: after)).2 = (statusCounts (before ++ after)).2 + 1 ↔
      HasStartedToken line) ∧
    ((statusCounts (before ++ line :: after)).2 = (statusCounts (before ++ after)).2 ↔
      ¬ HasStartedToken line) ∧
    (HasStartedToken line → HasStartedTokenAsWorded line) ∧
    readStatus (before ++ line :: after) =
      some [⟨.channelsDeployed, .GaugeValue,
          float64OfInt (statusCounts (before ++ line :: after)).1, []⟩,
        ⟨.channelsStarted, .GaugeValue,
          float64OfInt (statusCounts (before ++ line :: after)).2, []⟩] ∧
    statusCounts
      ["3a9f1c00-1111-2222-3333-444455556666 Running Started more text".toList] = (1, 1) ∧
    statusCounts
      ["3a9f1c00-1111-2222-3333-444455556666 Running Stopped more text".toList] = (1, 0) ∧
    statusCounts ["3a9f1c00-1111-2222-3333-444455556666 Running Started".toList] = (1, 0) := by
  have hd : deployed.MatchString line = true := (deployed_MatchString_iff line).2 h
  have e : statusCounts (before ++ line :: after) =
      ((statusCounts (before ++ after)).1 + 1,
       (statusCounts (before ++ after)).2 + (if started.MatchString line then 1 else 0)) := by
    rw [statusCounts_append, statusCounts_cons, statusCounts_single, statusCounts_append]
    simp only [hd, if_true, Bool.true_and, Prod.mk.injEq]
    constructor <;> omega
  refine ⟨by rw [e], ?_, ?_, hasStartedTokenAsWorded_of_token line,
    by rw [readStatus_eq]; rfl, by decide, by decide, by decide⟩
  · rw [e, ← started_MatchString_iff]
    cases started.MatchString line <;> simp
  · rw [e, ← started_MatchString_iff]
    cases started.MatchString line <;> simp

theorem readStatus_started_witness :
    HasStartedToken "3a9f1c00-1111-2222-3333-444455556666 Running Started more text".toList ∧
    (statusCounts
      ([] ++ "3a9f1c00-1111-2222-3333-444455556666 Running Started more text".toList :: [])).2
      = (statusCounts ([] ++ [])).2 + 1 := by
  have h := readStatus_started [] []
    "3a9f1c00-1111-2222-3333-444455556666 Running Started more text".toList
    ((deployed_MatchString_iff _).1 (by decide))
  exact ⟨h.2.1.1 (by decide), by decide⟩

/-- C6. For every list of lines, the empty one included, `readStatus` does not fail and sends
counts with deployedCount ≥ startedCount ≥ 0, as integers and as the `float64` values sent;
both counts are 0 when no line matches the deployed-row pattern. -/
theorem readStatus_counts (lines : List Str) :
    ∃ deployedCount startedCount : Nat,
      readStatus lines =
        some [⟨.channelsDeployed, .GaugeValue, float64OfInt deployedCount, []⟩,
          ⟨.channelsStarted, .GaugeValue, float64OfInt startedCount, []⟩] ∧
      0 ≤ startedCount ∧ startedCount ≤ deployedCount ∧ deployedCount ≤ lines.length ∧
      Float64.le (.fin 0) (float64OfInt startedCount) ∧
      Float64.le (float64OfInt startedCount) (float64OfInt deployedCount) ∧
      ((∀ l ∈ lines, deployed.MatchString l = false) →
        deployedCount = 0 ∧ startedCount = 0) ∧
      ((∀ l ∈ lines, ¬ DeployedRow l) → deployedCount = 0 ∧ startedCount = 0) := by
  have hle := statusCounts_le lines
  have h0 : (∀ l ∈ lines, deployed.MatchString l = false) →
      (statusCounts lines).1 = 0 ∧ (statusCounts lines).2 = 0 := by
    intro hno
    have : (statusCounts lines).1 = 0 := by
      rw [statusCounts_eq]
      simp only [List.countP_eq_zero]
      intro l hl
      simp [hno l hl]
    exact ⟨this, by omega⟩
  refine ⟨(statusCounts lines).1, (statusCounts lines).2, readStatus_eq lines, Nat.zero_le _,
    hle.1, hle.2, ?_, float64OfInt_mono _ _ hle.1, h0, ?_⟩
  · exact float64OfInt_mono 0 _ (Nat.zero_le _)
  · intro hno
    apply h0
    intro l hl
    cases hd : deployed.MatchString l with
    | false => rfl
    | true => exact absurd ((deployed_MatchString_iff l).1 hd) (hno l hl)

theorem readStatus_counts_witness :
    ∃ deployedCount startedCount : Nat,
      readStatus ["foo bar".toList] =
        some [⟨.channelsDeployed, .GaugeValue, float64OfInt deployedCount, []⟩,
          ⟨.channelsStarted, .GaugeValue, float64OfInt startedCount, []⟩] ∧
      deployedCount = 0 ∧ startedCount = 0 := by
  obtain ⟨d, s, h1, -, -, -, -, -, h2, -⟩ := readStatus_counts ["foo bar".toList]
  exact ⟨d, s, h1, h2 (by decide)⟩

/-- C7. One line made of the decimal renderings of `r`, `f`, `q`, `s`, `e` (each exactly
representable as a `float64`, as every number below `2^53` is) and a non-empty name without newline that does not begin with
whitespace, separated by non-empty runs of whitespace, makes `readChannelStats` send exactly
five samples, in the order received, filtered, queued, sent, errored, with the values
`r`, `f`, `q`, `s`, `e`, each labelled with the name as it stands. -/
theorem readChannelStats_row (r f q s e : Nat) (w1 w2 w3 w4 w5 name : Str)
    (hr : IsFloat64 r) (hf : IsFloat64 f) (hq : IsFloat64 q) (hs : IsFloat64 s)
    (he : IsFloat64 e)
    (g1 : IsGap w1) (g2 : IsGap w2) (g3 : IsGap w3) (g4 : IsGap w4) (g5 : IsGap w5)
    (hn : IsName name) (hh : ∀ c, name.head? = some c → ¬ IsWhitespace c) :
    readChannelStats
      [Nat.toDigits 10 r ++ w1 ++ Nat.toDigits 10 f ++ w2 ++ Nat.toDigits 10 q ++ w3 ++
        Nat.toDigits 10 s ++ w4 ++ Nat.toDigits 10 e ++ w5 ++ name] =
      some [⟨.messagesReceived, .CounterValue, .fin r, [name]⟩,
        ⟨.messagesFiltered, .CounterValue, .fin f, [name]⟩,
        ⟨.messagesQueued, .GaugeValue, .fin q, [name]⟩,
        ⟨.messagesSent, .CounterValue, .fin s, [name]⟩,
        ⟨.messagesErrored, .CounterValue, .fin e, [name]⟩] := by
  have hh2 : ∀ x xs, name = x :: xs → isSpace x = false := by
    intro x xs hx
    cases hsp : isSpace x with
    | false => rfl
    | true => exact absurd ((isSpace_iff x).1 hsp) (hh x (by rw [hx]; rfl))
  obtain ⟨pos, tl, hrun⟩ := run_stat_row_head _ _ _ _ _ w1 w2 w3 w4 w5 name
    (toDigits_spec r).1 (toDigits_spec f).1 (toDigits_spec q).1 (toDigits_spec s).1
    (toDigits_spec e).1 g1 g2 g3 g4 g5 hn hh2
  have hline := readChannelStatsLine_of_head
    (Nat.toDigits 10 r ++ (w1 ++ (Nat.toDigits 10 f ++ (w2 ++ (Nat.toDigits 10 q ++ (w3 ++
      (Nat.toDigits 10 s ++ (w4 ++ (Nat.toDigits 10 e ++ (w5 ++ name))))))))))
    _ _ _ _ _ name _ (by rw [hrun]; rfl) rfl
  rw [ParseFloat_toDigits r hr, ParseFloat_toDigits f hf, ParseFloat_toDigits q hq,
    ParseFloat_toDigits s hs, ParseFloat_toDigits e he] at hline
  simp only [List.append_assoc]
  rw [readChannelStats_cons _ [] _ [] hline rfl]
  rfl

theorem readChannelStats_row_witness :
    readChannelStats ["10 2 0 8 0 Lab Results".toList] =
      some [⟨.messagesReceived, .CounterValue, .fin 10, ["Lab Results".toList]⟩,
        ⟨.messagesFiltered, .CounterValue, .fin 2, ["Lab Results".toList]⟩,
        ⟨.messagesQueued, .GaugeValue, .fin 0, ["Lab Results".toList]⟩,
        ⟨.messagesSent, .CounterValue, .fin 8, ["Lab Results".toList]⟩,
        ⟨.messagesErrored, .CounterValue, .fin 0, ["Lab Results".toList]⟩] :=
  readChannelStats_row 10 2 0 8 0 [' '] [' '] [' '] [' '] [' '] "Lab Results".toList
    (isFloat64_of_lt 10 (by norm_num)) (isFloat64_of_lt 2 (by norm_num))
    (isFloat64_of_lt 0 (by norm_num)) (isFloat64_of_lt 8 (by norm_num))
    (isFloat64_of_lt 0 (by norm_num))
    ⟨by decide, by decide⟩ ⟨by decide, by decide⟩ ⟨by decide, by decide⟩
    ⟨by decide, by decide⟩ ⟨by decide, by decide⟩ ⟨by decide, by decide⟩ (by decide)

/-- C8. The samples of `readChannelStats` are the concatenation, in the order of the lines,
of one group per line: the five samples of the line when it is a stats row (five
whitespace-separated non-negative integer fields, whitespace, and a trailing name that fills
the rest of the line), nothing otherwise. Equal channel names are not merged, no stats row
gives no sample, and the samples of earlier lines come before those of later lines. -/
theorem readChannelStats_concat (lines xs ys : List Str) :
    (∃ groups : List (List Metric),
      readChannelStats lines = some groups.flatten ∧ List.Forall₂ RowGroup lines groups) ∧
    (∀ l, stat.MatchString l = true ↔ IsStatRow l) ∧
    ((∀ l ∈ lines, ¬ IsStatRow l) → readChannelStats lines = some []) ∧
    (∃ a b, readChannelStats xs = some a ∧ readChannelStats ys = some b ∧
      readChannelStats (xs ++ ys) = some (a ++ b)) ∧
    readChannelStats ["1 2 3 4 5 A".toList, "x".toList, "6 7 8 9 10 B".toList] =
      some (channelSamples (.fin 1) (.fin 2) (.fin 3) (.fin 4) (.fin 5) "A".toList ++
        channelSamples (.fin 6) (.fin 7) (.fin 8) (.fin 9) (.fin 10) "B".toList) ∧
    readChannelStats ["1 2 3 4 5 A".toList, "6 7 8 9 10 A".toList] =
      some (channelSamples (.fin 1) (.fin 2) (.fin 3) (.fin 4) (.fin 5) "A".toList ++
        channelSamples (.fin 6) (.fin 7) (.fin 8) (.fin 9) (.fin 10) "A".toList) := by
  obtain ⟨groups, h1, h2, -⟩ := readChannelStats_groups lines
  refine ⟨⟨groups, h1, h2⟩, stat_MatchString_iff, ?_, readChannelStats_append xs ys,
    by decide, by decide⟩
  intro hno
  rw [h1]
  have : ∀ g ∈ groups, g = [] := by
    clear h1
    induction h2 with
    | nil => intro g hg; simp at hg
    | cons hrow _ ih =>
      intro g hg
      rcases List.mem_cons.1 hg with rfl | hg
      · rcases hrow with ⟨d1, d2, d3, d4, d5, name, hr, -⟩ | ⟨-, rfl⟩
        · exact absurd ⟨d1, d2, d3, d4, d5, name, hr⟩ (hno _ (by simp))
        · rfl
      · exact ih (fun l hl => hno l (List.mem_cons_of_mem _ hl)) g hg
  rw [List.flatten_eq_nil_iff.2 this]

theorem readChannelStats_concat_witness :
    readChannelStats ["status".toList, "foo bar".toList] = some [] := by
  apply (readChannelStats_concat ["status".toList, "foo bar".toList] [] []).2.2.1
  intro l hl
  rw [← stat_MatchString_iff]
  revert l
  decide

theorem bigField_field : IsNumberField bigField := by
  refine ⟨List.cons_ne_nil _ _, ?_⟩
  intro c hc
  simp only [bigField, List.mem_cons, List.mem_replicate] at hc
  rcases hc with rfl | ⟨-, rfl⟩ <;> decide

theorem decimalValue_replicate_zero (n : Nat) : decimalValue (List.replicate n '0') = 0 := by
  induction n with
  | zero => rfl
  | succ n ih =>
    rw [List.replicate_succ, decimalValue_cons, ih]
    simp

theorem decimalValue_bigField : decimalValue bigField = 10 ^ 309 := by
  have h1 : '1'.toNat - 48 = 1 := rfl
  rw [bigField, decimalValue_cons, decimalValue_replicate_zero, List.length_replicate, h1,
    Nat.one_mul, Nat.add_zero]

theorem ParseFloat_bigField : ParseFloat bigField = (.inf, some .ErrRange) := by
  rw [ParseFloat_field _ bigField_field, decimalValue_bigField]
  have h : ¬ float64Round (10 ^ 309) < 2 ^ 1024 := by
    rw [float64Round_of_ge _ (by norm_num)]
    have hl : Nat.log2 (10 ^ 309) = 1026 := by
      have h0 : (10 : Nat) ^ 309 ≠ 0 := by positivity
      have h1 : 1026 ≤ Nat.log2 (10 ^ 309) := (Nat.le_log2 h0).2 (by norm_num)
      have h2 : Nat.log2 (10 ^ 309) < 1027 := (Nat.log2_lt h0).2 (by norm_num)
      omega
    rw [hl]
    norm_num
  rw [if_neg h]

theorem statRow_bigLine :
    StatRow (bigField ++ " 2 0 8 0 A".toList) bigField ['2'] ['0'] ['8'] ['0'] ['A'] :=
  ⟨[' '], [' '], [' '], [' '], [' '], by simp only [List.append_assoc]; rfl, bigField_field,
    ⟨by decide, by decide⟩, ⟨by decide, by decide⟩, ⟨by decide, by decide⟩,
    ⟨by decide, by decide⟩, ⟨by decide, by decide⟩, ⟨by decide, by decide⟩,
    ⟨by decide, by decide⟩, ⟨by decide, by decide⟩, ⟨by decide, by decide⟩,
    ⟨by decide, by decide⟩⟩

/-- C9 as stated fails: on a stats row whose first field is the 310-digit string of `10^309`
the conversion of that field reports a range error, and the value sent for it is `+Inf`,
not zero. -/
theorem readChannelStats_range_error :
    (ParseFloat bigField).2 = some .ErrRange ∧
    readChannelStats [bigField ++ " 2 0 8 0 A".toList] =
      some [⟨.messagesReceived, .CounterValue, .inf, ["A".toList]⟩,
        ⟨.messagesFiltered, .CounterValue, .fin 2, ["A".toList]⟩,
        ⟨.messagesQueued, .GaugeValue, .fin 0, ["A".toList]⟩,
        ⟨.messagesSent, .CounterValue, .fin 8, ["A".toList]⟩,
        ⟨.messagesErrored, .CounterValue, .fin 0, ["A".toList]⟩] := by
  refine ⟨by rw [ParseFloat_bigField], ?_⟩
  obtain ⟨pos, tl, hrun⟩ := run_stat_row_head bigField ['2'] ['0'] ['8'] ['0']
    [' '] [' '] [' '] [' '] [' '] ['A'] bigField_field
    ⟨by decide, by decide⟩ ⟨by decide, by decide⟩ ⟨by decide, by decide⟩
    ⟨by decide, by decide⟩ ⟨by decide, by decide⟩ ⟨by decide, by decide⟩
    ⟨by decide, by decide⟩ ⟨by decide, by decide⟩ ⟨by decide, by decide⟩
    ⟨by decide, by decide⟩ (by
      intro x xs h
      simp only [List.cons.injEq] at h
      rw [← h.1]
      rfl)
  have hrun2 : run stat ⟨0, bigField ++ " 2 0 8 0 A".toList, []⟩ = _ := hrun
  have hline := readChannelStatsLine_of_head (bigField ++ " 2 0 8 0 A".toList)
    bigField ['2'] ['0'] ['8'] ['0'] ['A'] _ (by rw [hrun2]; rfl) rfl
  rw [ParseFloat_bigField] at hline
  rw [readChannelStats_cons _ [] _ [] hline rfl]
  rfl

theorem ParseFloat_field_error (d : Str) (f : IsNumberField d) :
    ((ParseFloat d).2 ≠ none → (ParseFloat d).2 = some .ErrRange ∧ (ParseFloat d).1 = .inf) ∧
    ((ParseFloat d).2 = none → (ParseFloat d).1 = .fin (float64Round (decimalValue d))) := by
  rw [ParseFloat_field d f]
  split <;> simp

/-- C9, amended. On a line that matches the stats row pattern each of the five fields is a
non-empty run of digits, so its conversion can only fail with a range error (a digit string
too large for `float64`); the value sent for such a field is `+Inf`, the value `ParseFloat`
returns with the error. The other fields of the line and all other lines are sent as
usual. -/
theorem readChannelStats_conversion_error (before after : List Str) (line : Str)
    (h : stat.MatchString line = true) :
    ∃ d1 d2 d3 d4 d5 name a b,
      StatRow line d1 d2 d3 d4 d5 name ∧
      readChannelStats before = some a ∧ readChannelStats after = some b ∧
      readChannelStats (before ++ line :: after) =
        some (a ++ [⟨.messagesReceived, .CounterValue, (ParseFloat d1).1, [name]⟩,
          ⟨.messagesFiltered, .CounterValue, (ParseFloat d2).1, [name]⟩,
          ⟨.messagesQueued, .GaugeValue, (ParseFloat d3).1, [name]⟩,
          ⟨.messagesSent, .CounterValue, (ParseFloat d4).1, [name]⟩,
          ⟨.messagesErrored, .CounterValue, (ParseFloat d5).1, [name]⟩] ++ b) ∧
      ∀ d ∈ [d1, d2, d3, d4, d5],
        ((ParseFloat d).2 ≠ none →
          (ParseFloat d).2 = some .ErrRange ∧ (ParseFloat d).1 = .inf) ∧
        ((ParseFloat d).2 = none → (ParseFloat d).1 = .fin (float64Round (decimalValue d))) := by
  obtain ⟨d1, d2, d3, d4, d5, name, hrow, hg⟩ := readChannelStatsLine_of_match line h
  obtain ⟨gs, hb, -⟩ := readChannelStats_groups after
  have hc := readChannelStats_cons line after _ _ hg hb
  obtain ⟨a, c, ha, hc2, hac⟩ := readChannelStats_append before (line :: after)
  rw [hc] at hc2
  simp only [Option.some.injEq] at hc2
  subst hc2
  refine ⟨d1, d2, d3, d4, d5, name, a, gs.flatten, hrow, ha, hb, ?_, ?_⟩
  · rw [hac]
    simp [channelSamples]
  · obtain ⟨w1, w2, w3, w4, w5, -, f1, f2, f3, f4, f5, -⟩ := hrow
    intro d hd
    simp only [List.mem_cons, List.mem_singleton, List.not_mem_nil, or_false] at hd
    rcases hd with rfl | rfl | rfl | rfl | rfl
    · exact ParseFloat_field_error _ f1
    · exact ParseFloat_field_error _ f2
    · exact ParseFloat_field_error _ f3
    · exact ParseFloat_field_error _ f4
    · exact ParseFloat_field_error _ f5

theorem readChannelStats_conversion_error_witness :
    ∃ d1 d2 d3 d4 d5 name a b,
      StatRow (bigField ++ " 2 0 8 0 A".toList) d1 d2 d3 d4 d5 name ∧
      readChannelStats [] = some a ∧ readChannelStats [] = some b ∧
      readChannelStats ([] ++ (bigField ++ " 2 0 8 0 A".toList) :: []) =
        some (a ++ [⟨.messagesReceived, .CounterValue, (ParseFloat d1).1, [name]⟩,
          ⟨.messagesFiltered, .CounterValue, (ParseFloat d2).1, [name]⟩,
          ⟨.messagesQueued, .GaugeValue, (ParseFloat d3).1, [name]⟩,
          ⟨.messagesSent, .CounterValue, (ParseFloat d4).1, [name]⟩,
          ⟨.messagesErrored, .CounterValue, (ParseFloat d5).1, [name]⟩] ++ b) ∧
      ∀ d ∈ [d1, d2, d3, d4, d5],
        ((ParseFloat d).2 ≠ none →
          (ParseFloat d).2 = some .ErrRange ∧ (ParseFloat d).1 = .inf) ∧
        ((ParseFloat d).2 = none → (ParseFloat d).1 = .fin (float64Round (decimalValue d))) :=
  readChannelStats_conversion_error [] [] (bigField ++ " 2 0 8 0 A".toList)
    ((stat_MatchString_iff _).2 ⟨_, _, _, _, _, _, statRow_bigLine⟩)

end MirthExporter
